import Mathlib

/-!
# Verification of the `amislicer` CPU slicing core (`src/cpu_slicer.rs`)

A shallow embedding of the mesh-to-raster slicing engine.  `f64` values are
modelled as exact rationals (`ℚ`): every property checked here is structural
(control flow, list shapes, orderings, quantization grids) and is stated in
exact arithmetic; no claim about floating-point rounding noise is settled via
this model.  Rust's `f64::round` (round half away from zero) is modelled
exactly by `rustRound`.  `±∞`, which appear as fold seeds in `z_range`, are
modelled by the three-valued type `F`.

Rust `Vec` loops become list folds; the `HashMap` iteration order used by
`assemble_polygons` (unspecified and randomized in Rust) is an explicit
`order : List Key` parameter, and the `HashMap`/`HashSet` contents are
association lists with the same insertion semantics.  The one unbounded
`loop` in `assemble_polygons` is given fuel that provably dominates its
iteration count (each iteration consumes a fresh undirected edge).
-/

namespace AmiSlicer

/-- A 3-D point / vector with exact rational coordinates (models
`nalgebra::Vector3<f64>` and the `[f32; 3]` vertex data, after the `as f64`
widening in the source). -/
structure Vec3 where
  x : ℚ
  y : ℚ
  z : ℚ
  deriving DecidableEq, Repr

/-- `stl_io::Triangle`: a normal and three vertices.  The slicing code reads
only the vertices; the normal is carried along unchanged. -/
structure Triangle where
  normal : Vec3
  v0 : Vec3
  v1 : Vec3
  v2 : Vec3
  deriving DecidableEq, Repr

/-- The slicer configuration, from `struct CPUSlicer`. -/
structure CPUSlicer where
  pixel_x : ℕ
  pixel_y : ℕ
  slice_thickness : ℚ
  physical_x : ℚ
  physical_y : ℚ
  deriving DecidableEq, Repr

/-- `CPUSlicer::new` stores the five configuration values unchanged.  It has
no error channel and performs no validation (relevant to claim C2). -/
def CPUSlicer.new (x y : ℕ) (slice_thickness physical_x physical_y : ℚ) :
    CPUSlicer :=
  { pixel_x := x, pixel_y := y, slice_thickness := slice_thickness,
    physical_x := physical_x, physical_y := physical_y }

/-- Rust `f64::round`: nearest integer, ties rounded away from zero. -/
def rustRound (q : ℚ) : ℤ :=
  if 0 ≤ q then ⌊q + 1 / 2⌋ else -⌊-q + 1 / 2⌋

/-- `CPUSlicer::model_to_image_coords`: per-axis pixels-per-millimeter
scaling (`ppm_x = pixel_x / physical_x` for x, `ppm_y = pixel_y / physical_y`
for y) followed by translation of the origin to the canvas midpoint and
rounding.  The Rust `as i32` narrowing is modelled as the exact integer
(all inputs considered stay far inside the `i32` range). -/
def model_to_image_coords (s : CPUSlicer) (model_point : Vec3) : ℤ × ℤ :=
  let ppm_x : ℚ := (s.pixel_x : ℚ) / s.physical_x
  let ppm_y : ℚ := (s.pixel_y : ℚ) / s.physical_y
  let scaled_x := model_point.x * ppm_x
  let scaled_y := model_point.y * ppm_y
  let image_x := scaled_x + (s.pixel_x : ℚ) / 2
  let image_y := scaled_y + (s.pixel_y : ℚ) / 2
  (rustRound image_x, rustRound image_y)

/-- Modelled from the spec: the vertex mapping the specification describes —
one uniform scale factor `ppm = min(pixel_x/physical_x, pixel_y/physical_y)`
applied to both axes, then centering and rounding.  Used as the comparison
point for claim C1; the source's actual mapping is `model_to_image_coords`
above. -/
def specUniformImageCoords (s : CPUSlicer) (model_point : Vec3) : ℤ × ℤ :=
  let ppm_x : ℚ := (s.pixel_x : ℚ) / s.physical_x
  let ppm_y : ℚ := (s.pixel_y : ℚ) / s.physical_y
  let ppm := min ppm_x ppm_y
  (rustRound (model_point.x * ppm + (s.pixel_x : ℚ) / 2),
   rustRound (model_point.y * ppm + (s.pixel_y : ℚ) / 2))

/-- The floating-point tolerance `1e-6` used throughout the slicer. -/
def eps : ℚ := 1 / 1000000

/-! ## Plane schedule (`z_range` and the `while z <= max_z` loop) -/

/-- An `f64` value that is either `-∞`, finite, or `+∞`.  `NaN` never arises
in the modelled code paths (all inputs are finite and no `0/0`, `∞-∞` or
similar is computed by `z_range`). -/
inductive F where
  | ninf : F
  | fin (q : ℚ) : F
  | inf : F
  deriving DecidableEq, Repr

/-- `f64::min` on the modelled values. -/
def F.fmin : F → F → F
  | F.ninf, _ => F.ninf
  | _, F.ninf => F.ninf
  | F.inf, b => b
  | a, F.inf => a
  | F.fin a, F.fin b => F.fin (min a b)

/-- `f64::max` on the modelled values. -/
def F.fmax : F → F → F
  | F.inf, _ => F.inf
  | _, F.inf => F.inf
  | F.ninf, b => b
  | a, F.ninf => a
  | F.fin a, F.fin b => F.fin (max a b)

/-- The `<=` comparison on the modelled values. -/
def F.fle : F → F → Bool
  | F.ninf, _ => true
  | _, F.inf => true
  | F.inf, _ => false
  | _, F.ninf => false
  | F.fin a, F.fin b => decide (a ≤ b)

/-- The three vertices of a triangle, in order. -/
def Triangle.vertices (t : Triangle) : List Vec3 := [t.v0, t.v1, t.v2]

/-- The `z_coords` vector of `z_range`: the z-coordinates of all vertices. -/
def zCoords (triangles : List Triangle) : List ℚ :=
  triangles.flatMap fun tri => tri.vertices.map Vec3.z

/-- `CPUSlicer::z_range`: fold `f64::min` (seed `+∞`) and `f64::max`
(seed `-∞`) over the z-coordinates of all vertices. -/
def z_range (triangles : List Triangle) : F × F :=
  ((zCoords triangles).foldl (fun acc z => F.fmin acc (F.fin z)) F.inf,
   (zCoords triangles).foldl (fun acc z => F.fmax acc (F.fin z)) F.ninf)

/-- One iteration of `while z <= max_z { push z; z += t }`, with fuel.
The fuel only bounds the number of iterations; `sliceLoop` below always
supplies enough of it (for `t > 0`), as `sliceLoop_eq` proves. -/
def sliceLoopFuel : ℕ → ℚ → ℚ → ℚ → List ℚ
  | 0, _, _, _ => []
  | fuel + 1, z, max_z, t => if z ≤ max_z then z :: sliceLoopFuel fuel (z + t) max_z t else []

/-- Fuel that dominates the iteration count of the schedule loop for `t > 0`:
the loop pushes `⌊(max_z - z) / t⌋ + 1` values and then tests the guard once
more. -/
def sliceFuel (z max_z t : ℚ) : ℕ := ⌊(max_z - z) / t⌋.toNat + 2

/-- The schedule loop of `generate_slice_images` for finite bounds:
`let mut z = min_z; while z <= max_z { slice_z_values.push(z); z += t }`. -/
def sliceLoop (min_z max_z t : ℚ) : List ℚ := sliceLoopFuel (sliceFuel min_z max_z t) min_z max_z t

/-- The `slice_z_values` computed by `generate_slice_images`.  When the
triangle list is empty, `z_range` returns `(+∞, -∞)` and the loop guard
`+∞ <= -∞` fails immediately, giving the empty schedule; `z_range_shape`
below proves these are the only two shapes `z_range` takes, so the
catch-all arm is exercised exactly by the empty-geometry case. -/
def slice_z_values (triangles : List Triangle) (t : ℚ) : List ℚ :=
  match z_range triangles with
  | (F.fin min_z, F.fin max_z) => sliceLoop min_z max_z t
  | _ => []

/-! ## Plane–triangle intersector (`intersect_triangle_with_plane`) -/

/-- Vector subtraction. -/
def Vec3.sub (a b : Vec3) : Vec3 := ⟨a.x - b.x, a.y - b.y, a.z - b.z⟩

/-- Scalar multiplication `v * t`. -/
def Vec3.smul (a : Vec3) (t : ℚ) : Vec3 := ⟨a.x * t, a.y * t, a.z * t⟩

/-- Vector addition. -/
def Vec3.add (a b : Vec3) : Vec3 := ⟨a.x + b.x, a.y + b.y, a.z + b.z⟩

/-- Squared Euclidean distance.  The source compares
`a.metric_distance(b) < epsilon`; since both sides are nonnegative this is
equivalent to `dist2 a b < epsilon ^ 2`, which avoids irrational square
roots in the model. -/
def Vec3.dist2 (a b : Vec3) : ℚ :=
  (a.x - b.x) ^ 2 + (a.y - b.y) ^ 2 + (a.z - b.z) ^ 2

/-- The sort comparator of `intersect_triangle_with_plane`: lexicographic on
`(x, y, z)` (`partial_cmp` is total on the rational model, so the
`unwrap_or(Equal)` branches never fire).  `lexLe a b` says `a` sorts no
later than `b`. -/
def lexLe (a b : Vec3) : Bool :=
  decide (a.x < b.x) ||
    (decide (a.x = b.x) &&
      (decide (a.y < b.y) || (decide (a.y = b.y) && decide (a.z ≤ b.z))))

/-- Insert into a `lexLe`-sorted list.  Ties in the comparator occur only
between fully equal points, so any sort computes the same list as the
source's stable `sort_by`. -/
def insertSorted (a : Vec3) : List Vec3 → List Vec3
  | [] => [a]
  | b :: rest => if lexLe a b then a :: b :: rest else b :: insertSorted a rest

/-- `Vec::sort_by` with the lexicographic comparator. -/
def sortPoints (l : List Vec3) : List Vec3 := l.foldr insertSorted []

/-- `Vec::dedup_by(|a, b| a.metric_distance(b) < epsilon)`: scan the list,
dropping each element whose distance to the last *kept* element is below
`epsilon` (Rust's `dedup_by` compares against the last retained element). -/
def dedupNear (epsilon : ℚ) : List Vec3 → List Vec3
  | [] => []
  | x :: rest => x :: dedupNearGo epsilon x rest
where
  /-- Auxiliary scan carrying the last kept element. -/
  dedupNearGo (epsilon : ℚ) (kept : Vec3) : List Vec3 → List Vec3
    | [] => []
    | y :: ys =>
      if Vec3.dist2 y kept < epsilon ^ 2 then dedupNearGo epsilon kept ys
      else y :: dedupNearGo epsilon y ys

/-- The contribution of one directed edge `(p1, p2)` with signed distances
`(d1, d2)` to the intersection point list: the four-branch `if`/`else if`
chain in the edge loop of `intersect_triangle_with_plane`. -/
def edgeContrib (epsilon : ℚ) (p1 p2 : Vec3) (d1 d2 : ℚ) : List Vec3 :=
  if (d1 > epsilon ∧ d2 < -epsilon) ∨ (d1 < -epsilon ∧ d2 > epsilon) then
    [Vec3.add p1 (Vec3.smul (Vec3.sub p2 p1) (d1 / (d1 - d2)))]
  else if |d1| ≤ epsilon ∧ |d2| ≤ epsilon then [p1, p2]
  else if |d1| ≤ epsilon then [p1]
  else if |d2| ≤ epsilon then [p2]
  else []

/-- The `positive` flag of `intersect_triangle_with_plane`: some signed
distance exceeds `epsilon` (some vertex lies strictly above the plane). -/
def positiveFlag (triangle : Triangle) (plane_z : ℚ) : Bool :=
  decide (triangle.v0.z - plane_z > eps) || decide (triangle.v1.z - plane_z > eps) ||
    decide (triangle.v2.z - plane_z > eps)

/-- The `negative` flag of `intersect_triangle_with_plane`: some signed
distance is below `-epsilon` (some vertex lies strictly below the plane). -/
def negativeFlag (triangle : Triangle) (plane_z : ℚ) : Bool :=
  decide (triangle.v0.z - plane_z < -eps) || decide (triangle.v1.z - plane_z < -eps) ||
    decide (triangle.v2.z - plane_z < -eps)

/-- The unsorted intersection point list: the edge loop `for i in 0..3`
unrolled into the three cyclic edges. -/
def edgePoints (triangle : Triangle) (plane_z : ℚ) : List Vec3 :=
  edgeContrib eps triangle.v0 triangle.v1 (triangle.v0.z - plane_z) (triangle.v1.z - plane_z) ++
    edgeContrib eps triangle.v1 triangle.v2 (triangle.v1.z - plane_z) (triangle.v2.z - plane_z) ++
    edgeContrib eps triangle.v2 triangle.v0 (triangle.v2.z - plane_z) (triangle.v0.z - plane_z)

/-- `CPUSlicer::intersect_triangle_with_plane`:
`if !(positive && negative) { return vec![] }`, then the edge loop,
then sort-and-deduplicate. -/
def intersect_triangle_with_plane (triangle : Triangle) (plane_z : ℚ) : List Vec3 :=
  if positiveFlag triangle plane_z && negativeFlag triangle plane_z then
    dedupNear eps (sortPoints (edgePoints triangle plane_z))
  else []

/-- An intersection segment: an ordered pair of points. -/
abbrev Seg := Vec3 × Vec3

/-- `CPUSlicer::collect_intersection_segments`: keep exactly the triangles
whose (deduplicated) intersection has exactly two points; results with more
than two points are logged and dropped, all others dropped silently. -/
def collect_intersection_segments (triangles : List Triangle) (plane_z : ℚ) : List Seg :=
  triangles.foldl
    (fun segments triangle =>
      match intersect_triangle_with_plane triangle plane_z with
      | [a, b] => segments ++ [(a, b)]
      | _ => segments)
    []

/-! ## Polygon assembler (`assemble_polygons`)

The Rust code keys two `HashMap`s and a `HashSet` by quantized points.
They are modelled as association lists with the same observable semantics:
`or_insert` keeps the first binding, `entry(..).or_default().push(..)`
appends to the per-key `Vec` (creating it at the end of the map on first
use), and set membership is list membership.  The only behavior a `HashMap`
leaves unspecified is its *iteration order* over `adjacency.keys()`; that
order is an explicit `order : List Key` parameter (`adjKeys` gives the
insertion order as one canonical choice, and claim C8 exhibits two orders
that change the result). -/

/-- A quantized point key `(i64, i64)`. -/
abbrev Key := ℤ × ℤ

/-- A directed edge of the traversal, as stored in `visited_edges`. -/
abbrev Pair := Key × Key

/-- `point_to_key`: snap `(x, y)` to the epsilon grid via
`((p.x * (1/epsilon)).round(), (p.y * (1/epsilon)).round())`. -/
def point_to_key (p : Vec3) (epsilon : ℚ) : Key :=
  let scale := 1 / epsilon
  (rustRound (p.x * scale), rustRound (p.y * scale))

/-- Association-list lookup (first binding wins, like `HashMap`). -/
def alookup {α : Type} (m : List (Key × α)) (k : Key) : Option α :=
  match m with
  | [] => none
  | (k', v) :: rest => if k' = k then some v else alookup rest k

/-- `point_coords.entry(k).or_insert_with(|| p)`: insert only if absent. -/
def coordInsert (m : List (Key × Vec3)) (k : Key) (p : Vec3) : List (Key × Vec3) :=
  match alookup m k with
  | some _ => m
  | none => m ++ [(k, p)]

/-- `adjacency.entry(k).or_default().push(v)`: append `v` to the `Vec` at
`k`, creating the entry (at the end, i.e. in insertion order) if absent. -/
def adjInsert (m : List (Key × List Key)) (k v : Key) : List (Key × List Key) :=
  match m with
  | [] => [(k, [v])]
  | (k', vs) :: rest => if k' = k then (k', vs ++ [v]) :: rest else (k', vs) :: adjInsert rest k v

/-- The `point_coords` map after processing all segments. -/
def coordsMap (segments : List Seg) : List (Key × Vec3) :=
  segments.foldl
    (fun m seg =>
      let start_key := point_to_key seg.1 eps
      let end_key := point_to_key seg.2 eps
      coordInsert (coordInsert m start_key seg.1) end_key seg.2)
    []

/-- The `adjacency` map after processing all segments. -/
def adjMap (segments : List Seg) : List (Key × List Key) :=
  segments.foldl
    (fun m seg =>
      let start_key := point_to_key seg.1 eps
      let end_key := point_to_key seg.2 eps
      adjInsert (adjInsert m start_key end_key) end_key start_key)
    []

/-- The keys of the adjacency map in insertion order: the canonical
deterministic stand-in for `adjacency.keys()`. -/
def adjKeys (segments : List Seg) : List Key := (adjMap segments).map Prod.fst

/-- Membership of a directed edge in `visited_edges`, tested in both
directions as the source does at every use site. -/
def visitedEither (visited : List Pair) (a b : Key) : Bool :=
  decide ((a, b) ∈ visited) || decide ((b, a) ∈ visited)

/-- The inner `for &neighbor_key in neighbors` search: the first neighbor
that is not the key we just arrived from and whose edge (in either
direction) is unvisited. -/
def findNext (visited : List Pair) (cur prev : Key) : List Key → Option Key
  | [] => none
  | nb :: rest =>
    if nb ≠ prev ∧ ¬ visitedEither visited cur nb then some nb
    else findNext visited cur prev rest

/-- The `loop { polygon_keys.push(current_key); ... }` walk.  Returns the
keys pushed from `cur` onward, the final `current_key`, and the updated
`visited_edges`.  `prev` is `polygon_keys[len - 2]` after the push.  Each
iteration that continues marks a previously unvisited edge visited, so the
fuel passed by `tryStart` (more fuel than there are segments) is never
exhausted; on the fuel-out arm the walk reports its current state, which
`tryStart` then rejects exactly as it rejects an open chain. -/
def walk (adj : List (Key × List Key)) (start : Key) :
    ℕ → List Pair → Key → Key → List Key × Key × List Pair
  | 0, visited, _, cur => ([cur], cur, visited)
  | fuel + 1, visited, prev, cur =>
    match alookup adj cur with
    | none => ([cur], cur, visited)
    | some neighbors =>
      match findNext visited cur prev neighbors with
      | none => ([cur], cur, visited)
      | some nb =>
        let visited' := (cur, nb) :: visited
        if nb = start then ([cur], nb, visited')
        else
          let (ks, fin, visited'') := walk adj start fuel visited' cur nb
          (cur :: ks, fin, visited'')

/-- One candidate walk for the outer double loop: skip if the starting edge
is already visited, otherwise run the walk and keep the key list exactly
when `polygon_keys.len() >= 3 && current_key == start_key`. -/
def tryStart (adj : List (Key × List Key)) (fuel : ℕ) (start next : Key)
    (visited : List Pair) : Option (List Key) × List Pair :=
  if visitedEither visited start next then (none, visited)
  else
    let visited' := (start, next) :: visited
    let (ks, fin, visited'') := walk adj start fuel visited' start next
    let polygon_keys := start :: ks
    if 3 ≤ polygon_keys.length ∧ fin = start then (some polygon_keys, visited'')
    else (none, visited'')

/-- `for &next_key in &adjacency[&start_key]`. -/
def innerStarts (adj : List (Key × List Key)) (fuel : ℕ) (start : Key) :
    List Key → List Pair → List (List Key) × List Pair
  | [], visited => ([], visited)
  | next :: rest, visited =>
    match tryStart adj fuel start next visited with
    | (acc, visited') =>
      match innerStarts adj fuel start rest visited' with
      | (polys, visited'') => (acc.toList ++ polys, visited'')

/-- `for &start_key in adjacency.keys()`, with the iteration order as an
explicit parameter.  The indexing `adjacency[&start_key]` cannot fail in
the source because the iterated keys are the map's own keys; for an
arbitrary `order` the model treats a missing key as an empty neighbor
list. -/
def outerStarts (adj : List (Key × List Key)) (fuel : ℕ) :
    List Key → List Pair → List (List Key) × List Pair
  | [], visited => ([], visited)
  | start :: rest, visited =>
    match innerStarts adj fuel start ((alookup adj start).getD []) visited with
    | (polys, visited') =>
      match outerStarts adj fuel rest visited' with
      | (polys', visited'') => (polys ++ polys', visited'')

/-- The accepted walks of `assemble_polygons`, as quantized key lists. -/
def assembleKeys (segments : List Seg) (order : List Key) : List (List Key) :=
  (outerStarts (adjMap segments) (segments.length + 2) order []).1

/-- Resolve one accepted key list through `point_coords[&key]`; a missing
key models the Rust indexing panic. -/
def resolveKeys (coords : List (Key × Vec3)) : List Key → Option (List Vec3)
  | [] => some []
  | k :: rest =>
    match alookup coords k, resolveKeys coords rest with
    | some p, some ps => some (p :: ps)
    | _, _ => none

/-- Resolve every accepted key list; `none` as soon as any key is missing. -/
def resolveAll (coords : List (Key × Vec3)) : List (List Key) → Option (List (List Vec3))
  | [] => some []
  | kl :: rest =>
    match resolveKeys coords kl, resolveAll coords rest with
    | some poly, some polys => some (poly :: polys)
    | _, _ => none

/-- `CPUSlicer::assemble_polygons`: resolve each accepted key list back to
the stored representative coordinates via `point_coords[&key]`.  The Rust
indexing panics on a missing key; the model returns `none` in that case, so
"the source never panics" is the statement that this function is always
`some` (claim C10). -/
def assemble_polygons (segments : List Seg) (order : List Key) :
    Option (List (List Vec3)) :=
  resolveAll (coordsMap segments) (assembleKeys segments order)

/-! ## Rasterizer and pipeline (`generate_slice_images`)

`imageproc::drawing::draw_polygon_mut` is an external crate primitive: a
pure, deterministic function of the canvas and the point list.  The mask
image is therefore modelled by what determines it bit-for-bit — the canvas
dimensions and the ordered list of point lists handed to the fill
primitive.  No claim in scope depends on the pixels the fill produces. -/

/-- A mask image: `ImageBuffer::from_pixel(pixel_x, pixel_y, 0)` plus the
sequence of `draw_polygon_mut(.., points, 255)` calls applied to it. -/
structure MaskImage where
  width : ℕ
  height : ℕ
  draws : List (List (ℤ × ℤ))
  deriving DecidableEq, Repr

/-- The per-plane rasterization loop of `generate_slice_images`: map each
polygon's vertices to pixel coordinates, dropping repeats via
`!points.contains(&new_point)`, and draw when at least 3 points remain. -/
def renderImage (s : CPUSlicer) (polygons : List (List Vec3)) : MaskImage :=
  let draws := polygons.foldl
    (fun draws polygon =>
      let points := polygon.foldl
        (fun points p =>
          let new_point := model_to_image_coords s p
          if new_point ∈ points then points else points ++ [new_point])
        []
      if 3 ≤ points.length then draws ++ [points] else draws)
    []
  ⟨s.pixel_x, s.pixel_y, draws⟩

/-- The polygon list the pipeline obtains at one plane:
`CPUSlicer::assemble_polygons(&segments)` with the given iteration order.
The `getD []` discharges the `Option` introduced by the panic model — claim
C10 proves the `none` case is unreachable. -/
def polygonsAtPlane (triangles : List Triangle) (orderF : ℚ → List Key) (plane_z : ℚ) :
    List (List Vec3) :=
  (assemble_polygons (collect_intersection_segments triangles plane_z)
    (orderF plane_z)).getD []

/-- `CPUSlicer::generate_slice_images` (the `Ok` payload).  The source also
computes the bounding box, `ppm = min(ppm_x, ppm_y)` and the centering
offsets `offset_x` / `offset_y` here, but none of those locals flow into
the output (the offsets are never read), so they are omitted from the
model; the vertex mapping actually applied is `model_to_image_coords`.
`orderF` supplies the `HashMap` iteration order used by the assembler at
each plane. -/
def generate_slice_images (s : CPUSlicer) (triangles : List Triangle)
    (orderF : ℚ → List Key) : List MaskImage :=
  let zs := slice_z_values triangles s.slice_thickness
  zs.filterMap fun plane_z =>
    let segments := collect_intersection_segments triangles plane_z
    if segments = [] then none
    else
      let polygons := polygonsAtPlane triangles orderF plane_z
      if polygons = [] then none
      else some (renderImage s polygons)

/-- The canonical (insertion-order) instantiation of the iteration order. -/
def canonicalOrderF (triangles : List Triangle) : ℚ → List Key :=
  fun plane_z => adjKeys (collect_intersection_segments triangles plane_z)

/-! ## Lemmas about the plane schedule -/

/-- The fuel actually required by the schedule loop from state `z`:
one per push plus one final failed guard test. -/
def needFuel (z max_z t : ℚ) : ℕ :=
  if z ≤ max_z then ⌊(max_z - z) / t⌋.toNat + 2 else 1

theorem needFuel_le_sliceFuel (z max_z t : ℚ) : needFuel z max_z t ≤ sliceFuel z max_z t := by
  unfold needFuel sliceFuel
  split
  · exact le_rfl
  · omega

theorem needFuel_pos (z max_z t : ℚ) : 1 ≤ needFuel z max_z t := by
  unfold needFuel; split <;> omega

theorem floor_div_nonneg_of_le {a b t : ℚ} (ht : 0 < t) (hab : a ≤ b) :
    0 ≤ ⌊(b - a) / t⌋ := by
  apply Int.floor_nonneg.2
  apply div_nonneg (by linarith) (le_of_lt ht)

theorem floor_div_shift {a b t : ℚ} (ht : 0 < t) :
    ⌊(b - (a + t)) / t⌋ = ⌊(b - a) / t⌋ - 1 := by
  have hsub : (b - (a + t)) / t = (b - a) / t - 1 := by
    field_simp
    ring
  rw [hsub]
  exact_mod_cast Int.floor_sub_int ((b - a) / t) 1

theorem one_le_floor_div {a b t : ℚ} (ht : 0 < t) (hle : a + t ≤ b) :
    1 ≤ ⌊(b - a) / t⌋ := by
  apply Int.le_floor.2
  rw [show ((1 : ℤ) : ℚ) = 1 by norm_num, le_div_iff₀ ht]
  linarith

theorem needFuel_step {a b t : ℚ} (ht : 0 < t) (hab : a ≤ b) :
    needFuel (a + t) b t ≤ needFuel a b t - 1 := by
  have hfl : 0 ≤ ⌊(b - a) / t⌋ := floor_div_nonneg_of_le ht hab
  unfold needFuel
  rw [if_pos hab]
  split
  · rename_i hle
    have hfl1 : 1 ≤ ⌊(b - a) / t⌋ := one_le_floor_div ht hle
    rw [floor_div_shift ht]
    omega
  · omega

theorem sliceLoopFuel_stable {t : ℚ} (ht : 0 < t) (b : ℚ) :
    ∀ n m a, needFuel a b t ≤ n → needFuel a b t ≤ m →
      sliceLoopFuel n a b t = sliceLoopFuel m a b t := by
  intro n
  induction n using Nat.strong_induction_on with
  | _ n ih =>
    intro m a hn hm
    have h1 := needFuel_pos a b t
    obtain ⟨n', rfl⟩ : ∃ n', n = n' + 1 := ⟨n - 1, by omega⟩
    obtain ⟨m', rfl⟩ : ∃ m', m = m' + 1 := ⟨m - 1, by omega⟩
    show (if a ≤ b then a :: sliceLoopFuel n' (a + t) b t else []) =
      (if a ≤ b then a :: sliceLoopFuel m' (a + t) b t else [])
    by_cases hab : a ≤ b
    · rw [if_pos hab, if_pos hab]
      have hstep := needFuel_step ht hab
      have hneed : needFuel a b t = ((b - a) / t).floor.toNat + 2 := if_pos hab
      have hn' : needFuel (a + t) b t ≤ n' := by omega
      have hm' : needFuel (a + t) b t ≤ m' := by omega
      rw [ih n' (by omega) m' (a + t) hn' hm']
    · rw [if_neg hab, if_neg hab]

/-- The schedule loop satisfies the defining equation of
`while z <= max_z { push z; z += t }` whenever `t > 0`: the fuel supplied
by `sliceLoop` is always sufficient. -/
theorem sliceLoop_eq {t : ℚ} (ht : 0 < t) (a b : ℚ) :
    sliceLoop a b t = if a ≤ b then a :: sliceLoop (a + t) b t else [] := by
  have hfuel : sliceFuel a b t = ⌊(b - a) / t⌋.toNat + 2 := rfl
  show sliceLoopFuel (sliceFuel a b t) a b t = _
  rw [hfuel]
  show (if a ≤ b then a :: sliceLoopFuel (⌊(b - a) / t⌋.toNat + 1) (a + t) b t else []) = _
  by_cases hab : a ≤ b
  · rw [if_pos hab, if_pos hab]
    congr 1
    apply sliceLoopFuel_stable ht
    · have := needFuel_step ht hab
      have hneed : needFuel a b t = ⌊(b - a) / t⌋.toNat + 2 := if_pos hab
      omega
    · exact needFuel_le_sliceFuel _ _ _
  · rw [if_neg hab, if_neg hab]

theorem sliceLoop_of_lt {t : ℚ} (ht : 0 < t) {a b : ℚ} (h : ¬ a ≤ b) :
    sliceLoop a b t = [] := by
  rw [sliceLoop_eq ht, if_neg h]

/-- Closed form of the schedule loop: for `a ≤ b` it is exactly
`[a, a + t, a + 2t, …]` with `⌊(b - a)/t⌋ + 1` entries. -/
theorem sliceLoop_closed {t : ℚ} (ht : 0 < t) :
    ∀ (N : ℕ) (a b : ℚ), ⌊(b - a) / t⌋.toNat = N → a ≤ b →
      sliceLoop a b t = (List.range (N + 1)).map (fun k : ℕ => a + (k : ℚ) * t) := by
  intro N
  induction N with
  | zero =>
    intro a b hN hab
    have hnext : ¬ a + t ≤ b := by
      intro hle
      have := one_le_floor_div ht hle
      omega
    rw [sliceLoop_eq ht, if_pos hab, sliceLoop_of_lt ht hnext]
    rw [show List.range 1 = [0] from rfl, List.map_cons, List.map_nil]
    norm_num
  | succ N ih =>
    intro a b hN hab
    have hfl : 0 ≤ ⌊(b - a) / t⌋ := floor_div_nonneg_of_le ht hab
    have hfleq : ⌊(b - a) / t⌋ = (N : ℤ) + 1 := by omega
    have h1 : ((N : ℚ) + 1) ≤ (b - a) / t := by
      have hle := Int.floor_le ((b - a) / t)
      rw [hfleq] at hle
      push_cast at hle
      linarith
    have hnext : a + t ≤ b := by
      have hN0 : (0 : ℚ) ≤ (N : ℚ) := Nat.cast_nonneg N
      have h2 : (1 : ℚ) ≤ (b - a) / t := by linarith
      rw [le_div_iff₀ ht] at h2
      linarith
    have hNnext : ⌊(b - (a + t)) / t⌋.toNat = N := by
      rw [floor_div_shift ht, hfleq]
      omega
    rw [sliceLoop_eq ht, if_pos hab, ih (a + t) b hNnext hnext]
    conv_rhs => rw [List.range_succ_eq_map]
    rw [List.map_cons, List.map_map]
    congr 1
    · simp
    · apply List.map_congr_left
      intro k _
      simp only [Function.comp_apply]
      push_cast
      ring

/-- Membership bound for the schedule: `a + k·t` is scheduled exactly for
`k < ⌊(b - a)/t⌋ + 1`. -/
theorem schedule_mem_iff {t : ℚ} (ht : 0 < t) {a b : ℚ} (hab : a ≤ b) (k : ℕ) :
    a + (k : ℚ) * t ≤ b ↔ k < ⌊(b - a) / t⌋.toNat + 1 := by
  have hfl : 0 ≤ ⌊(b - a) / t⌋ := floor_div_nonneg_of_le ht hab
  constructor
  · intro h
    have h1 : ((k : ℚ)) ≤ (b - a) / t := by
      rw [le_div_iff₀ ht]
      linarith
    have h2 : (k : ℤ) ≤ ⌊(b - a) / t⌋ := Int.le_floor.2 (by exact_mod_cast h1)
    omega
  · intro h
    have h2 : (k : ℤ) ≤ ⌊(b - a) / t⌋ := by omega
    have h1 : ((k : ℚ)) ≤ (b - a) / t := by
      calc ((k : ℚ)) ≤ (⌊(b - a) / t⌋ : ℚ) := by exact_mod_cast h2
        _ ≤ (b - a) / t := Int.floor_le _
    rw [le_div_iff₀ ht] at h1
    linarith

/-- The schedule is strictly ascending. -/
theorem sliceLoop_ascending {t : ℚ} (ht : 0 < t) (a b : ℚ) :
    (sliceLoop a b t).Pairwise (· < ·) := by
  by_cases hab : a ≤ b
  · rw [sliceLoop_closed ht ⌊(b - a) / t⌋.toNat a b rfl hab]
    rw [List.pairwise_map]
    apply List.Pairwise.imp_of_mem _ (List.pairwise_lt_range _)
    intro i j _ _ hij
    have : (i : ℚ) < (j : ℚ) := by exact_mod_cast hij
    nlinarith
  · rw [sliceLoop_of_lt ht hab]
    exact List.Pairwise.nil

/-- Folding `f64::min` from a finite seed stays finite and computes the
list minimum. -/
theorem foldl_fmin_fin (xs : List ℚ) : ∀ c : ℚ,
    xs.foldl (fun acc z => F.fmin acc (F.fin z)) (F.fin c) = F.fin (xs.foldl min c) := by
  induction xs with
  | nil => intro c; rfl
  | cons x xs ih => intro c; exact ih (min c x)

/-- Folding `f64::max` from a finite seed stays finite and computes the
list maximum. -/
theorem foldl_fmax_fin (xs : List ℚ) : ∀ c : ℚ,
    xs.foldl (fun acc z => F.fmax acc (F.fin z)) (F.fin c) = F.fin (xs.foldl max c) := by
  induction xs with
  | nil => intro c; rfl
  | cons x xs ih => intro c; exact ih (max c x)

theorem foldl_min_le (xs : List ℚ) : ∀ c : ℚ,
    xs.foldl min c ≤ c ∧ ∀ x ∈ xs, xs.foldl min c ≤ x := by
  induction xs with
  | nil => intro c; exact ⟨le_rfl, by simp⟩
  | cons x xs ih =>
    intro c
    obtain ⟨h1, h2⟩ := ih (min c x)
    refine ⟨le_trans h1 (min_le_left _ _), ?_⟩
    intro y hy
    rcases List.mem_cons.1 hy with rfl | hy
    · exact le_trans h1 (min_le_right _ _)
    · exact h2 y hy

theorem foldl_max_le (xs : List ℚ) : ∀ c : ℚ,
    c ≤ xs.foldl max c ∧ ∀ x ∈ xs, x ≤ xs.foldl max c := by
  induction xs with
  | nil => intro c; exact ⟨le_rfl, by simp⟩
  | cons x xs ih =>
    intro c
    obtain ⟨h1, h2⟩ := ih (max c x)
    refine ⟨le_trans (le_max_left _ _) h1, ?_⟩
    intro y hy
    rcases List.mem_cons.1 hy with rfl | hy
    · exact le_trans (le_max_right _ _) h1
    · exact h2 y hy

theorem foldl_min_mem (xs : List ℚ) : ∀ c : ℚ,
    xs.foldl min c = c ∨ xs.foldl min c ∈ xs := by
  induction xs with
  | nil => intro c; exact Or.inl rfl
  | cons x xs ih =>
    intro c
    rcases ih (min c x) with h | h
    · rcases min_choice c x with hc | hc
      · exact Or.inl (h.trans hc)
      · exact Or.inr (List.mem_cons.2 (Or.inl (h.trans hc)))
    · exact Or.inr (List.mem_cons.2 (Or.inr h))

theorem foldl_max_mem (xs : List ℚ) : ∀ c : ℚ,
    xs.foldl max c = c ∨ xs.foldl max c ∈ xs := by
  induction xs with
  | nil => intro c; exact Or.inl rfl
  | cons x xs ih =>
    intro c
    rcases ih (max c x) with h | h
    · rcases max_choice c x with hc | hc
      · exact Or.inl (h.trans hc)
      · exact Or.inr (List.mem_cons.2 (Or.inl (h.trans hc)))
    · exact Or.inr (List.mem_cons.2 (Or.inr h))

theorem zCoords_ne_nil {triangles : List Triangle} (h : triangles ≠ []) :
    zCoords triangles ≠ [] := by
  obtain ⟨tri, rest, rfl⟩ : ∃ tri rest, triangles = tri :: rest := by
    cases triangles with
    | nil => exact absurd rfl h
    | cons tri rest => exact ⟨tri, rest, rfl⟩
  simp [zCoords, Triangle.vertices]

/-- For a nonempty triangle list, `z_range` returns finite bounds that are
attained minimum and maximum z-coordinates. -/
theorem z_range_fin {triangles : List Triangle} (h : triangles ≠ []) :
    ∃ min_z max_z : ℚ, z_range triangles = (F.fin min_z, F.fin max_z) ∧
      (∀ q ∈ zCoords triangles, min_z ≤ q ∧ q ≤ max_z) ∧
      min_z ∈ zCoords triangles ∧ max_z ∈ zCoords triangles := by
  obtain ⟨z0, rest, hz⟩ : ∃ z0 rest, zCoords triangles = z0 :: rest := by
    cases hzc : zCoords triangles with
    | nil => exact absurd hzc (zCoords_ne_nil h)
    | cons z0 rest => exact ⟨z0, rest, rfl⟩
  refine ⟨rest.foldl min z0, rest.foldl max z0, ?_, ?_, ?_, ?_⟩
  · unfold z_range
    rw [hz]
    show (rest.foldl (fun acc z => F.fmin acc (F.fin z)) (F.fmin F.inf (F.fin z0)),
      rest.foldl (fun acc z => F.fmax acc (F.fin z)) (F.fmax F.ninf (F.fin z0))) = _
    rw [show F.fmin F.inf (F.fin z0) = F.fin z0 from rfl,
      show F.fmax F.ninf (F.fin z0) = F.fin z0 from rfl,
      foldl_fmin_fin, foldl_fmax_fin]
  · intro q hq
    rw [hz] at hq
    rcases List.mem_cons.1 hq with rfl | hq
    · exact ⟨(foldl_min_le rest q).1, (foldl_max_le rest q).1⟩
    · exact ⟨(foldl_min_le rest z0).2 q hq, (foldl_max_le rest z0).2 q hq⟩
  · rw [hz]
    rcases foldl_min_mem rest z0 with h1 | h1
    · exact List.mem_cons.2 (Or.inl h1)
    · exact List.mem_cons.2 (Or.inr h1)
  · rw [hz]
    rcases foldl_max_mem rest z0 with h1 | h1
    · exact List.mem_cons.2 (Or.inl h1)
    · exact List.mem_cons.2 (Or.inr h1)

/-! ## Concrete fixtures used by counterexamples and witnesses -/

/-- A slicer configuration with `ppm_x = ppm_y = 1`. -/
def fixtureSlicer : CPUSlicer := CPUSlicer.new 100 100 1 100 100

/-- A slicer whose two pixels-per-millimeter ratios differ
(`ppm_x = 10`, `ppm_y = 5`). -/
def anisotropicSlicer : CPUSlicer := CPUSlicer.new 100 100 1 10 20

/-- A triangle straddling `z = 0` whose single intersection segment forms an
open chain (one segment cannot close into a polygon). -/
def openChainTriangle : Triangle := ⟨⟨0, 0, 0⟩, ⟨0, 0, -1⟩, ⟨2, 0, 1⟩, ⟨0, 2, 1⟩⟩

/-- A triangle with `v0` exactly on the plane `z = 0` and the other two
vertices strictly above it. -/
def touchingPlaneTriangle : Triangle := ⟨⟨0, 0, 0⟩, ⟨0, 0, 0⟩, ⟨1, 0, 1⟩, ⟨0, 1, 1⟩⟩

/-- A near-degenerate straddling triangle whose two edge crossings with
`z = 0` are `eps/2` apart, so deduplication collapses them to one point. -/
def nearDegenerateTriangle : Triangle :=
  ⟨⟨0, 0, 0⟩, ⟨0, 0, 1 / 500000⟩, ⟨0, 0, -1 / 500000⟩, ⟨1 / 1000000, 0, 1 / 500000⟩⟩

/-- A triangle whose intersection with the plane `z = 0` is exactly the
segment from `(ax, ay, 0)` to `(bx, b2, 0)`. -/
def segTriangle (ax ay bx b2 : ℚ) : Triangle :=
  ⟨⟨0, 0, 0⟩, ⟨ax, ay, 1⟩, ⟨ax, ay, -1⟩, ⟨2 * bx - ax, 2 * b2 - ay, 1⟩⟩

/-- Four triangles whose `z = 0` cross-section is a "tadpole": the triangle
loop `(0,0) – (1,0) – (0,1)` plus a tail segment to `(-1,0)`. -/
def tadpoleTriangles : List Triangle :=
  [segTriangle 0 0 1 0, segTriangle 1 0 0 1, segTriangle 0 1 0 0, segTriangle (-1) 0 0 0]

/-- The insertion-order iteration over the tadpole's adjacency keys (one
possible `HashMap` order). -/
def tadpoleOrderA : List Key := [(0, 0), (1000000, 0), (0, 1000000), (-1000000, 0)]

/-- The same keys iterated starting from the tail key (another possible
`HashMap` order). -/
def tadpoleOrderB : List Key := [(-1000000, 0), (0, 0), (1000000, 0), (0, 1000000)]

/-- Three segments forming a closed triangle loop at `z = 0`. -/
def loopSegments : List Seg :=
  [(⟨0, 0, 0⟩, ⟨1, 0, 0⟩), (⟨0, 1, 0⟩, ⟨1, 0, 0⟩), (⟨0, 0, 0⟩, ⟨0, 1, 0⟩)]

/-! ## Claim C2 -/

/-- **C2** (code_bug evidence).  `CPUSlicer::new` stores a non-positive
slice thickness without any validation, and with `slice_thickness = 0` the
plane-schedule loop of `generate_slice_images` never terminates: for
geometry with `min_z = 0 ≤ max_z = 1`, after any number `n` of iterations
the guard `z ≤ max_z` still holds (`z` is still `0`), so no error is ever
surfaced to the caller — the claim's required hard failure does not exist
in the code. -/
theorem C2_no_validation_schedule_diverges :
    (CPUSlicer.new 100 100 0 10 10).slice_thickness = 0 ∧
    ∀ n : ℕ, sliceLoopFuel n 0 1 0 = List.replicate n 0 := by
  refine ⟨rfl, ?_⟩
  intro n
  induction n with
  | zero => rfl
  | succ n ih =>
    show (if (0 : ℚ) ≤ 1 then (0 : ℚ) :: sliceLoopFuel n (0 + 0) 1 0 else []) = _
    rw [if_pos (by norm_num), show (0 : ℚ) + 0 = 0 from by norm_num, ih]
    rfl

/-! ## Claim C4 -/

/-- **C4** (confirmed).  For `t > 0`: an empty triangle list yields the
`(+∞, -∞)` sentinels and an empty schedule (the loop exits at once); a
nonempty list yields finite, attained bounds `min_z`/`max_z` over all
vertex z-coordinates, and the schedule is exactly
`min_z, min_z + t, min_z + 2t, …` — one entry for each `k` with
`min_z + k·t ≤ max_z` — which always includes `min_z`. -/
theorem C4_plane_schedule (triangles : List Triangle) (t : ℚ) (ht : 0 < t) :
    (triangles = [] → z_range triangles = (F.inf, F.ninf) ∧ slice_z_values triangles t = []) ∧
    (triangles ≠ [] → ∃ min_z max_z : ℚ,
      z_range triangles = (F.fin min_z, F.fin max_z) ∧
      (∀ q ∈ zCoords triangles, min_z ≤ q ∧ q ≤ max_z) ∧
      min_z ∈ zCoords triangles ∧ max_z ∈ zCoords triangles ∧
      slice_z_values triangles t =
        (List.range (⌊(max_z - min_z) / t⌋.toNat + 1)).map (fun k : ℕ => min_z + (k : ℚ) * t) ∧
      (∀ k : ℕ, min_z + (k : ℚ) * t ≤ max_z ↔ k < ⌊(max_z - min_z) / t⌋.toNat + 1) ∧
      min_z ∈ slice_z_values triangles t) := by
  constructor
  · rintro rfl
    exact ⟨rfl, rfl⟩
  · intro hne
    obtain ⟨min_z, max_z, hzr, hbound, hminmem, hmaxmem⟩ := z_range_fin hne
    have hab : min_z ≤ max_z := (hbound min_z hminmem).2
    have hslice : slice_z_values triangles t = sliceLoop min_z max_z t := by
      unfold slice_z_values
      rw [hzr]
    refine ⟨min_z, max_z, hzr, hbound, hminmem, hmaxmem, ?_, ?_, ?_⟩
    · rw [hslice]
      exact sliceLoop_closed ht _ min_z max_z rfl hab
    · intro k
      exact schedule_mem_iff ht hab k
    · rw [hslice, sliceLoop_closed ht _ min_z max_z rfl hab]
      apply List.mem_map.2
      refine ⟨0, ?_, by simp⟩
      exact List.mem_range.2 (by omega)

/-- Witness for C4 at a concrete nonempty input (`t = 2/5`, z-extent
`[-1, 1]`, six scheduled planes). -/
theorem C4_plane_schedule_witness :
    (([openChainTriangle] : List Triangle) = [] →
      z_range [openChainTriangle] = (F.inf, F.ninf) ∧
      slice_z_values [openChainTriangle] (2 / 5) = []) ∧
    (([openChainTriangle] : List Triangle) ≠ [] → ∃ min_z max_z : ℚ,
      z_range [openChainTriangle] = (F.fin min_z, F.fin max_z) ∧
      (∀ q ∈ zCoords [openChainTriangle], min_z ≤ q ∧ q ≤ max_z) ∧
      min_z ∈ zCoords [openChainTriangle] ∧ max_z ∈ zCoords [openChainTriangle] ∧
      slice_z_values [openChainTriangle] (2 / 5) =
        (List.range (⌊(max_z - min_z) / (2 / 5)⌋.toNat + 1)).map
          (fun k : ℕ => min_z + (k : ℚ) * (2 / 5)) ∧
      (∀ k : ℕ, min_z + (k : ℚ) * (2 / 5) ≤ max_z ↔
        k < ⌊(max_z - min_z) / (2 / 5)⌋.toNat + 1) ∧
      min_z ∈ slice_z_values [openChainTriangle] (2 / 5)) :=
  C4_plane_schedule [openChainTriangle] (2 / 5) (by norm_num)

/-! ## Claim C1 -/

/-- **C1** counterexample.  With `pixel = (100, 100)` and
`physical = (10, 20)` the two per-axis ratios differ (`ppm_x = 10`,
`ppm_y = 5`); the code maps the vertex `(1, 1)` to `(60, 55)` using
`ppm_x` for x, while the claimed uniform-minimum mapping gives `(55, 55)`:
the rasterizer does not apply one uniform scale to both axes. -/
theorem C1_per_axis_scaling_cx :
    model_to_image_coords anisotropicSlicer ⟨1, 1, 0⟩ = (60, 55) ∧
    specUniformImageCoords anisotropicSlicer ⟨1, 1, 0⟩ = (55, 55) ∧
    model_to_image_coords anisotropicSlicer ⟨1, 1, 0⟩ ≠
      specUniformImageCoords anisotropicSlicer ⟨1, 1, 0⟩ := by
  norm_num [model_to_image_coords, specUniformImageCoords, anisotropicSlicer,
    CPUSlicer.new, rustRound, min_def]

/-- **C1** amended (corrected).  The rasterizer maps each vertex with
*per-axis* scale factors (`ppm_x = pixel_x / physical_x` for x,
`ppm_y = pixel_y / physical_y` for y) via
`pixel = round(model · ppm_axis + canvas_size / 2)`, centered at the
canvas midpoint; this coincides with the claimed uniform-minimum mapping
exactly when the two ratios agree. -/
theorem C1_centered_per_axis_scaling (s : CPUSlicer)
    (h : (s.pixel_x : ℚ) / s.physical_x = (s.pixel_y : ℚ) / s.physical_y) (p : Vec3) :
    model_to_image_coords s p = specUniformImageCoords s p := by
  simp only [model_to_image_coords, specUniformImageCoords]
  rw [h, min_self]

/-- Witness for C1's amended statement at an equal-ratio configuration. -/
theorem C1_centered_per_axis_scaling_witness :
    model_to_image_coords fixtureSlicer ⟨1, 2, 3⟩ = specUniformImageCoords fixtureSlicer ⟨1, 2, 3⟩ :=
  C1_centered_per_axis_scaling fixtureSlicer (by norm_num [fixtureSlicer, CPUSlicer.new]) ⟨1, 2, 3⟩

/-! ## Claim C3 -/

theorem insertSorted_ne_nil (a : Vec3) (l : List Vec3) : insertSorted a l ≠ [] := by
  cases l with
  | nil => simp [insertSorted]
  | cons b t =>
    simp only [insertSorted]
    split <;> simp

theorem sortPoints_ne_nil {l : List Vec3} (h : l ≠ []) : sortPoints l ≠ [] := by
  cases l with
  | nil => exact absurd rfl h
  | cons a t => exact insertSorted_ne_nil a (t.foldr insertSorted [])

theorem dedupNear_ne_nil {ε : ℚ} {l : List Vec3} (h : l ≠ []) : dedupNear ε l ≠ [] := by
  cases l with
  | nil => exact absurd rfl h
  | cons x rest => simp [dedupNear]

theorem edgeContrib_cross_ne_nil {ε : ℚ} {p1 p2 : Vec3} {d1 d2 : ℚ}
    (h : (d1 > ε ∧ d2 < -ε) ∨ (d1 < -ε ∧ d2 > ε)) : edgeContrib ε p1 p2 d1 d2 ≠ [] := by
  unfold edgeContrib
  rw [if_pos h]
  simp

/-- If some vertex is strictly above and some strictly below the plane,
the edge loop emits at least one point. -/
theorem edgePoints_ne_nil {tri : Triangle} {plane_z : ℚ}
    (hp : positiveFlag tri plane_z = true) (hn : negativeFlag tri plane_z = true) :
    edgePoints tri plane_z ≠ [] := by
  have heps : (0 : ℚ) < eps := by norm_num [eps]
  have hp' : tri.v0.z - plane_z > eps ∨ tri.v1.z - plane_z > eps ∨ tri.v2.z - plane_z > eps := by
    simpa [positiveFlag, Bool.or_eq_true, decide_eq_true_eq, or_assoc] using hp
  have hn' : tri.v0.z - plane_z < -eps ∨ tri.v1.z - plane_z < -eps ∨
      tri.v2.z - plane_z < -eps := by
    simpa [negativeFlag, Bool.or_eq_true, decide_eq_true_eq, or_assoc] using hn
  unfold edgePoints
  intro hnil
  obtain ⟨h0112, h20⟩ := List.append_eq_nil.1 hnil
  obtain ⟨h01, h12⟩ := List.append_eq_nil.1 h0112
  rcases hp' with h0 | h1 | h2 <;> rcases hn' with g0 | g1 | g2
  · linarith
  · exact edgeContrib_cross_ne_nil (Or.inl ⟨h0, g1⟩) h01
  · exact edgeContrib_cross_ne_nil (Or.inr ⟨g2, h0⟩) h20
  · exact edgeContrib_cross_ne_nil (Or.inr ⟨g0, h1⟩) h01
  · linarith
  · exact edgeContrib_cross_ne_nil (Or.inl ⟨h1, g2⟩) h12
  · exact edgeContrib_cross_ne_nil (Or.inl ⟨h2, g0⟩) h20
  · exact edgeContrib_cross_ne_nil (Or.inr ⟨g1, h2⟩) h12
  · linarith

/-- **C3** counterexample.  `touchingPlaneTriangle` has `v0` exactly on the
plane `z = 0` and `v1`, `v2` strictly above, yet the intersector returns
the empty list — not the on-plane vertex — because the
`!(positive && negative)` guard fires before the edge rules run. -/
theorem C3_touching_vertex_cx :
    touchingPlaneTriangle.v0.z - 0 = 0 ∧
    touchingPlaneTriangle.v1.z - 0 > eps ∧
    touchingPlaneTriangle.v2.z - 0 > eps ∧
    intersect_triangle_with_plane touchingPlaneTriangle 0 = [] := by
  norm_num [intersect_triangle_with_plane, positiveFlag, negativeFlag,
    touchingPlaneTriangle, eps]

/-- **C3** amended (corrected).  The intersector returns no points *iff*
the vertices do not strictly straddle the plane — that is, unless some
vertex is strictly above (beyond `eps`) **and** some vertex strictly below.
In particular a triangle with one vertex on-plane and the other two
strictly on one side yields the empty result; the per-edge emission rules
(including on-plane endpoint emission) apply only to strictly straddling
triangles, and then always produce at least one point. -/
theorem C3_empty_iff_no_strict_straddle (tri : Triangle) (plane_z : ℚ) :
    intersect_triangle_with_plane tri plane_z = [] ↔
      ¬ (positiveFlag tri plane_z = true ∧ negativeFlag tri plane_z = true) := by
  unfold intersect_triangle_with_plane
  by_cases hb : (positiveFlag tri plane_z && negativeFlag tri plane_z) = true
  · rw [if_pos hb]
    obtain ⟨hp, hn⟩ := Bool.and_eq_true_iff.1 hb
    exact iff_of_false (dedupNear_ne_nil (sortPoints_ne_nil (edgePoints_ne_nil hp hn)))
      (by simp [hp, hn])
  · rw [if_neg hb]
    apply iff_of_true rfl
    intro hcon
    exact hb (by rw [hcon.1, hcon.2]; rfl)

/-- Witness for C3's amended statement: `touchingPlaneTriangle` does not
strictly straddle `z = 0`, and indeed the intersector returns `[]`. -/
theorem C3_empty_iff_no_strict_straddle_witness :
    intersect_triangle_with_plane touchingPlaneTriangle 0 = [] ↔
      ¬ (positiveFlag touchingPlaneTriangle 0 = true ∧
         negativeFlag touchingPlaneTriangle 0 = true) :=
  C3_empty_iff_no_strict_straddle touchingPlaneTriangle 0

/-! ## Claim C5 -/

/-- **C5** counterexample.  `nearDegenerateTriangle` strictly straddles
`z = 0` and its two edge crossings are `eps/2` apart, so deduplication
collapses them: the result has cardinality exactly 1 (the claim says 1
never occurs), and the triangle then contributes no segment. -/
theorem C5_single_point_cx :
    (intersect_triangle_with_plane nearDegenerateTriangle 0).length = 1 ∧
    collect_intersection_segments [nearDegenerateTriangle] 0 = [] := by
  norm_num [intersect_triangle_with_plane, positiveFlag, negativeFlag, edgePoints,
    edgeContrib, Vec3.add, Vec3.sub, Vec3.smul, Vec3.dist2, sortPoints, insertSorted,
    lexLe, dedupNear, dedupNear.dedupNearGo, eps, nearDegenerateTriangle,
    collect_intersection_segments, abs_le, abs_lt, decide_eq_true_eq, Bool.or_eq_true,
    Bool.and_eq_true]

theorem collect_step_eq (plane_z : ℚ) (acc : List Seg) (tri : Triangle) :
    (match intersect_triangle_with_plane tri plane_z with
      | [a, b] => acc ++ [(a, b)]
      | _ => acc) =
    acc ++ (match intersect_triangle_with_plane tri plane_z with
      | [a, b] => [(a, b)]
      | _ => []) := by
  cases h : intersect_triangle_with_plane tri plane_z with
  | nil => simp
  | cons a t =>
    cases t with
    | nil => simp
    | cons b t2 =>
      cases t2 with
      | nil => simp
      | cons c t3 => simp

theorem collect_foldl_general (plane_z : ℚ) :
    ∀ (l : List Triangle) (acc : List Seg),
      l.foldl (fun segments triangle =>
        match intersect_triangle_with_plane triangle plane_z with
        | [a, b] => segments ++ [(a, b)]
        | _ => segments) acc =
      acc ++ l.flatMap (fun tri =>
        match intersect_triangle_with_plane tri plane_z with
        | [a, b] => [(a, b)]
        | _ => []) := by
  intro l
  induction l with
  | nil => intro acc; simp
  | cons tri rest ih =>
    intro acc
    rw [List.foldl_cons, ih, List.flatMap_cons, ← List.append_assoc]
    congr 1
    exact collect_step_eq plane_z acc tri

/-- **C5** amended (corrected).  A triangle contributes a segment to a
plane exactly when its deduplicated intersection has exactly two points;
every other cardinality — including the reachable cardinality 1 — is
dropped (the `> 2` case after a debug log, the rest silently). -/
theorem C5_only_two_point_results_contribute (triangles : List Triangle) (plane_z : ℚ) :
    collect_intersection_segments triangles plane_z =
      triangles.flatMap (fun tri =>
        match intersect_triangle_with_plane tri plane_z with
        | [a, b] => [(a, b)]
        | _ => []) := by
  have h := collect_foldl_general plane_z triangles []
  simpa [collect_intersection_segments] using h

/-! ## Claim C7 -/

theorem rustRound_bounds_nonneg {a : ℚ} (h : 0 ≤ a) :
    (rustRound a : ℚ) - 1 / 2 ≤ a ∧ a < (rustRound a : ℚ) + 1 / 2 := by
  unfold rustRound
  rw [if_pos h]
  have h1 := Int.floor_le (a + 1 / 2)
  have h2 := Int.lt_floor_add_one (a + 1 / 2)
  push_cast at h1 h2 ⊢
  constructor <;> linarith

theorem rustRound_bounds_neg {a : ℚ} (h : ¬ 0 ≤ a) :
    (rustRound a : ℚ) - 1 / 2 < a ∧ a ≤ (rustRound a : ℚ) + 1 / 2 := by
  unfold rustRound
  rw [if_neg h]
  have h1 := Int.floor_le (-a + 1 / 2)
  have h2 := Int.lt_floor_add_one (-a + 1 / 2)
  push_cast at h1 h2 ⊢
  constructor <;> linarith

/-- Two rationals with the same rounded value are strictly less than one
unit apart (ties round away from zero, so the two half-unit boundary cases
cannot both be attained). -/
theorem rustRound_gap {a b : ℚ} (h : rustRound a = rustRound b) : |a - b| < 1 := by
  rw [abs_lt]
  by_cases ha : 0 ≤ a <;> by_cases hb : 0 ≤ b
  · obtain ⟨a1, a2⟩ := rustRound_bounds_nonneg ha
    obtain ⟨b1, b2⟩ := rustRound_bounds_nonneg hb
    rw [h] at a1 a2
    constructor <;> linarith
  · obtain ⟨a1, a2⟩ := rustRound_bounds_nonneg ha
    obtain ⟨b1, b2⟩ := rustRound_bounds_neg hb
    rw [h] at a1 a2
    have hb' : b < 0 := lt_of_not_ge hb
    constructor <;> linarith
  · obtain ⟨a1, a2⟩ := rustRound_bounds_neg ha
    obtain ⟨b1, b2⟩ := rustRound_bounds_nonneg hb
    rw [h] at a1 a2
    have ha' : a < 0 := lt_of_not_ge ha
    constructor <;> linarith
  · obtain ⟨a1, a2⟩ := rustRound_bounds_neg ha
    obtain ⟨b1, b2⟩ := rustRound_bounds_neg hb
    rw [h] at a1 a2
    constructor <;> linarith

/-- **C7** counterexample.  Two points whose x-coordinates differ by
`eps/5 < eps` straddle a grid boundary and quantize to *different* keys:
"below epsilon implies same key" is false of the grid-snapping code. -/
theorem C7_close_points_different_keys_cx :
    |(4 / 10000000 : ℚ) - 6 / 10000000| < eps ∧
    point_to_key ⟨4 / 10000000, 0, 0⟩ eps ≠ point_to_key ⟨6 / 10000000, 0, 0⟩ eps := by
  norm_num [point_to_key, rustRound, eps, Prod.ext_iff, abs_lt]

/-- **C7** amended (corrected).  The quantization is grid snapping:
`point_to_key` rounds each coordinate times `1/epsilon`.  Equal keys do
guarantee both coordinate differences are strictly below `epsilon` (and the
function is total — no crash at any input, including exactly-epsilon
differences), but the converse direction of the claim fails: points closer
than `epsilon` may still receive different keys, as the counterexample
shows. -/
theorem C7_same_key_implies_close (p q : Vec3) (epsilon : ℚ) (hε : 0 < epsilon)
    (h : point_to_key p epsilon = point_to_key q epsilon) :
    |p.x - q.x| < epsilon ∧ |p.y - q.y| < epsilon := by
  unfold point_to_key at h
  obtain ⟨hx, hy⟩ := Prod.mk.injEq _ _ _ _ ▸ h
  constructor
  · have hgap := rustRound_gap hx
    have heq : p.x * (1 / epsilon) - q.x * (1 / epsilon) = (p.x - q.x) / epsilon := by
      field_simp
    rw [heq, abs_div, abs_of_pos hε, div_lt_one hε] at hgap
    exact hgap
  · have hgap := rustRound_gap hy
    have heq : p.y * (1 / epsilon) - q.y * (1 / epsilon) = (p.y - q.y) / epsilon := by
      field_simp
    rw [heq, abs_div, abs_of_pos hε, div_lt_one hε] at hgap
    exact hgap

/-- Witness for C7's amended statement at a concrete pair of points with
equal keys. -/
theorem C7_same_key_implies_close_witness :
    |(0 : ℚ) - 1 / 4000000| < eps ∧ |(0 : ℚ) - 0| < eps :=
  C7_same_key_implies_close ⟨0, 0, 0⟩ ⟨1 / 4000000, 0, 0⟩ eps (by norm_num [eps])
    (by norm_num [point_to_key, rustRound, eps])

/-! ## Claim C6 -/

theorem outerStarts_nil_adj (fuel : ℕ) : ∀ (order : List Key) (visited : List Pair),
    outerStarts [] fuel order visited = ([], visited) := by
  intro order
  induction order with
  | nil => intro visited; rfl
  | cons start rest ih =>
    intro visited
    show (match innerStarts [] fuel start ((alookup [] start).getD []) visited with
      | (polys, visited') =>
        match outerStarts [] fuel rest visited' with
        | (polys', visited'') => (polys ++ polys', visited'')) = ([], visited)
    rw [show (alookup ([] : List (Key × List Key)) start).getD [] = [] from rfl]
    show (match outerStarts [] fuel rest visited with
      | (polys', visited'') => (([] : List (List Key)) ++ polys', visited'')) = ([], visited)
    rw [ih visited]
    rfl

theorem assemble_polygons_nil (order : List Key) :
    assemble_polygons [] order = some [] := by
  show resolveAll (coordsMap []) (outerStarts (adjMap []) ([].length + 2) order []).1 = some []
  rw [show adjMap [] = [] from rfl, outerStarts_nil_adj]
  rfl

/-- A plane with no intersection segments assembles to no polygons. -/
theorem polygonsAtPlane_of_no_segments {triangles : List Triangle} {orderF : ℚ → List Key}
    {plane_z : ℚ} (h : collect_intersection_segments triangles plane_z = []) :
    polygonsAtPlane triangles orderF plane_z = [] := by
  unfold polygonsAtPlane
  rw [h, assemble_polygons_nil]
  rfl

/-- **C6** amended (corrected).  The output is the schedule — strictly
ascending in plane height — filtered to the planes whose segments assemble
into at least one *closed polygon*, with exactly one image each.  Planes
with no intersection segments are absent, as the claim says; but so are
planes whose (possibly nonempty) segments assemble only into open chains,
which the claim's "exactly one image per plane that had intersecting
geometry" misses. -/
theorem C6_one_image_per_polygon_plane (s : CPUSlicer) (triangles : List Triangle)
    (orderF : ℚ → List Key) (ht : 0 < s.slice_thickness) :
    generate_slice_images s triangles orderF =
      ((slice_z_values triangles s.slice_thickness).filter
        (fun plane_z => decide (polygonsAtPlane triangles orderF plane_z ≠ []))).map
        (fun plane_z => renderImage s (polygonsAtPlane triangles orderF plane_z)) ∧
    (slice_z_values triangles s.slice_thickness).Pairwise (· < ·) := by
  constructor
  · simp only [generate_slice_images]
    induction slice_z_values triangles s.slice_thickness with
    | nil => rfl
    | cons z zs ih =>
      by_cases hseg : collect_intersection_segments triangles z = []
      · have hpoly : polygonsAtPlane triangles orderF z = [] :=
          polygonsAtPlane_of_no_segments hseg
        simp [hseg, hpoly, ih]
      · by_cases hpoly : polygonsAtPlane triangles orderF z = []
        · simp [hseg, hpoly, ih]
        · simp [hseg, hpoly, ih]
  · unfold slice_z_values
    rcases hzr : z_range triangles with ⟨mz, mx⟩
    cases mz with
    | fin a =>
      cases mx with
      | fin b => exact sliceLoop_ascending ht a b
      | ninf => exact List.Pairwise.nil
      | inf => exact List.Pairwise.nil
    | ninf => cases mx <;> exact List.Pairwise.nil
    | inf => cases mx <;> exact List.Pairwise.nil

/-- **C6** counterexample.  With `openChainTriangle` and `t = 1`, the plane
`z = 0` is scheduled and has intersecting geometry (one segment), yet the
output contains no image at all for any plane: the single segment is an
open chain, so `assemble_polygons` returns nothing and the plane is
filtered out despite its nonempty intersection. -/
theorem C6_plane_with_geometry_but_no_image_cx :
    (0 : ℚ) ∈ slice_z_values [openChainTriangle] 1 ∧
    collect_intersection_segments [openChainTriangle] 0 ≠ [] ∧
    generate_slice_images fixtureSlicer [openChainTriangle]
      (canonicalOrderF [openChainTriangle]) = [] := by
  refine ⟨?_, ?_, ?_⟩
  · norm_num [slice_z_values, z_range, zCoords, Triangle.vertices, F.fmin, F.fmax,
      sliceLoop, sliceFuel, sliceLoopFuel, openChainTriangle]
  · norm_num [collect_intersection_segments, intersect_triangle_with_plane, positiveFlag,
      negativeFlag, edgePoints, edgeContrib, Vec3.add, Vec3.sub, Vec3.smul, Vec3.dist2,
      sortPoints, insertSorted, lexLe, dedupNear, dedupNear.dedupNearGo, eps,
      openChainTriangle, abs_le, abs_lt, decide_eq_true_eq, Bool.or_eq_true, Bool.and_eq_true]
  · norm_num [generate_slice_images, slice_z_values, z_range, zCoords, Triangle.vertices,
      F.fmin, F.fmax, sliceLoop, sliceFuel, sliceLoopFuel,
      collect_intersection_segments, intersect_triangle_with_plane, positiveFlag,
      negativeFlag, edgePoints, edgeContrib, Vec3.add, Vec3.sub, Vec3.smul, Vec3.dist2,
      sortPoints, insertSorted, lexLe, dedupNear, dedupNear.dedupNearGo, eps,
      polygonsAtPlane, assemble_polygons, assembleKeys, resolveAll, resolveKeys,
      outerStarts, innerStarts, tryStart, walk, findNext, visitedEither, adjMap, adjInsert,
      coordsMap, coordInsert, alookup, point_to_key, rustRound, canonicalOrderF, adjKeys,
      openChainTriangle, fixtureSlicer, CPUSlicer.new, renderImage, model_to_image_coords,
      abs_le, abs_lt, decide_eq_true_eq, Bool.or_eq_true, Bool.and_eq_true, min_def]

/-- Witness for C6's amended statement at the open-chain fixture. -/
theorem C6_one_image_per_polygon_plane_witness :
    generate_slice_images fixtureSlicer [openChainTriangle]
      (canonicalOrderF [openChainTriangle]) =
      ((slice_z_values [openChainTriangle] fixtureSlicer.slice_thickness).filter
        (fun plane_z => decide (polygonsAtPlane [openChainTriangle]
          (canonicalOrderF [openChainTriangle]) plane_z ≠ []))).map
        (fun plane_z => renderImage fixtureSlicer (polygonsAtPlane [openChainTriangle]
          (canonicalOrderF [openChainTriangle]) plane_z)) ∧
    (slice_z_values [openChainTriangle] fixtureSlicer.slice_thickness).Pairwise (· < ·) :=
  C6_one_image_per_polygon_plane fixtureSlicer [openChainTriangle]
    (canonicalOrderF [openChainTriangle]) (by norm_num [fixtureSlicer, CPUSlicer.new])

/-! ## Claim C8 -/

/-- The four intersection segments of the tadpole geometry at `z = 0`. -/
theorem tadpole_segments :
    collect_intersection_segments tadpoleTriangles 0 =
      [(⟨0, 0, 0⟩, ⟨1, 0, 0⟩), (⟨0, 1, 0⟩, ⟨1, 0, 0⟩),
       (⟨0, 0, 0⟩, ⟨0, 1, 0⟩), (⟨-1, 0, 0⟩, ⟨0, 0, 0⟩)] := by
  norm_num [collect_intersection_segments, intersect_triangle_with_plane, positiveFlag,
    negativeFlag, edgePoints, edgeContrib, Vec3.add, Vec3.sub, Vec3.smul, Vec3.dist2,
    sortPoints, insertSorted, lexLe, dedupNear, dedupNear.dedupNearGo, eps,
    tadpoleTriangles, segTriangle,
    abs_le, abs_lt, decide_eq_true_eq, Bool.or_eq_true, Bool.and_eq_true]

theorem tadpole_schedule : slice_z_values tadpoleTriangles 1 = [-1, 0, 1] := by
  norm_num [slice_z_values, z_range, zCoords, Triangle.vertices, F.fmin, F.fmax,
    sliceLoop, sliceFuel, sliceLoopFuel, min_def, max_def, tadpoleTriangles, segTriangle]

theorem tadpole_no_segments_below : collect_intersection_segments tadpoleTriangles (-1) = [] := by
  norm_num [collect_intersection_segments, intersect_triangle_with_plane, positiveFlag,
    negativeFlag, eps, tadpoleTriangles, segTriangle]

theorem tadpole_no_segments_above : collect_intersection_segments tadpoleTriangles 1 = [] := by
  norm_num [collect_intersection_segments, intersect_triangle_with_plane, positiveFlag,
    negativeFlag, eps, tadpoleTriangles, segTriangle]

set_option maxHeartbeats 2000000

theorem tadpole_polygons_orderA :
    polygonsAtPlane tadpoleTriangles (fun _ => tadpoleOrderA) 0 =
      [[⟨0, 0, 0⟩, ⟨1, 0, 0⟩, ⟨0, 1, 0⟩]] := by
  unfold polygonsAtPlane
  rw [tadpole_segments]
  norm_num [assemble_polygons, assembleKeys, resolveAll, resolveKeys, outerStarts,
    innerStarts, tryStart, walk, findNext, visitedEither, adjMap, adjInsert, coordsMap,
    coordInsert, alookup, point_to_key, rustRound, eps, tadpoleOrderA]
  decide

theorem tadpole_polygons_orderB :
    polygonsAtPlane tadpoleTriangles (fun _ => tadpoleOrderB) 0 = [] := by
  unfold polygonsAtPlane
  rw [tadpole_segments]
  norm_num [assemble_polygons, assembleKeys, resolveAll, resolveKeys, outerStarts,
    innerStarts, tryStart, walk, findNext, visitedEither, adjMap, adjInsert, coordsMap,
    coordInsert, alookup, point_to_key, rustRound, eps, tadpoleOrderB]

/-- **C8** (code_bug evidence).  The assembler iterates
`adjacency.keys()`, whose order a Rust `HashMap` randomizes per process.
On the tadpole geometry, both iteration orders below are permutations of
the very same key set (`tadpoleOrderA` is the insertion order), yet one
run finds the closed triangle loop and emits one image while the other
consumes the loop's edges inside a rejected open walk that starts at the
tail key and emits *no* image: two runs of the same slicing pipeline on
identical input need not produce bit-identical image sequences. -/
theorem C8_hashmap_order_changes_output :
    tadpoleOrderA.Perm tadpoleOrderB ∧
    tadpoleOrderA = adjKeys (collect_intersection_segments tadpoleTriangles 0) ∧
    (generate_slice_images fixtureSlicer tadpoleTriangles (fun _ => tadpoleOrderA)).length = 1 ∧
    (generate_slice_images fixtureSlicer tadpoleTriangles (fun _ => tadpoleOrderB)).length = 0 := by
  have hthick : fixtureSlicer.slice_thickness = 1 := rfl
  have hadj : adjKeys (collect_intersection_segments tadpoleTriangles 0) = tadpoleOrderA := by
    rw [tadpole_segments]
    norm_num [adjKeys, adjMap, adjInsert, alookup, point_to_key, rustRound, eps,
      tadpoleOrderA]
  refine ⟨by decide, hadj.symm, ?_, ?_⟩
  · simp only [generate_slice_images, hthick, tadpole_schedule]
    rw [List.filterMap_cons, List.filterMap_cons, List.filterMap_cons]
    simp [tadpole_segments, tadpole_no_segments_below, tadpole_no_segments_above,
      tadpole_polygons_orderA]
  · simp only [generate_slice_images, hthick, tadpole_schedule]
    rw [List.filterMap_cons, List.filterMap_cons, List.filterMap_cons]
    simp [tadpole_segments, tadpole_no_segments_below, tadpole_no_segments_above,
      tadpole_polygons_orderB]

set_option maxHeartbeats 200000

/-! ## Claims C9 and C10: invariants of the assembler's graph walk -/

/-- `v` is a recorded neighbor of `u` in the adjacency map. -/
def adjRel (adj : List (Key × List Key)) (u v : Key) : Prop :=
  v ∈ (alookup adj u).getD []

/-- `k` occurs in some neighbor `Vec` of the adjacency map. -/
def InVec (adj : List (Key × List Key)) (k : Key) : Prop :=
  ∃ e ∈ adj, k ∈ e.2

/-- The list of consecutive pairs of a key list. -/
def zipPairs (l : List Key) : List Pair := l.zip l.tail

/-- `FreshPairs trav visited` says the pairs of `trav`, inserted in order,
were each absent (in both directions) from the visited set at their own
insertion time. -/
def FreshPairs : List Pair → List Pair → Prop
  | [], _ => True
  | p :: rest, visited => p ∉ visited ∧ p.swap ∉ visited ∧ FreshPairs rest (p :: visited)

/-- Two directed pairs are distinct as undirected edges. -/
def UDiff (p q : Pair) : Prop := p ≠ q ∧ p ≠ q.swap

/-- What the traversal guarantees about every accepted `polygon_keys`. -/
def AcceptedKeys (adj : List (Key × List Key)) (start : Key) (keys : List Key) : Prop :=
  keys.head? = some start ∧ 3 ≤ keys.length ∧
  List.Chain' (adjRel adj) (keys ++ [start]) ∧
  (zipPairs (keys ++ [start])).Pairwise UDiff ∧
  (∀ k ∈ keys, k = start ∨ InVec adj k)

theorem alookup_mem {α : Type} {m : List (Key × α)} {k : Key} {v : α}
    (h : alookup m k = some v) : (k, v) ∈ m := by
  induction m with
  | nil => exact absurd h (by simp [alookup])
  | cons e rest ih =>
    obtain ⟨k', v'⟩ := e
    by_cases hk : k' = k
    · subst hk
      rw [show alookup ((k', v') :: rest) k' = some v' from by simp [alookup]] at h
      obtain rfl := Option.some.injEq _ _ ▸ h
      exact List.mem_cons_self _ _
    · rw [show alookup ((k', v') :: rest) k = alookup rest k from by simp [alookup, hk]] at h
      exact List.mem_cons_of_mem _ (ih h)

theorem adjRel_invec {adj : List (Key × List Key)} {u v : Key}
    (h : adjRel adj u v) : InVec adj v := by
  unfold adjRel at h
  cases hl : alookup adj u with
  | none => rw [hl] at h; simp at h
  | some vec =>
    rw [hl] at h
    exact ⟨(u, vec), alookup_mem hl, h⟩

theorem findNext_spec {visited : List Pair} {cur prev : Key} {nb : Key} :
    ∀ {l : List Key}, findNext visited cur prev l = some nb →
      nb ∈ l ∧ nb ≠ prev ∧ visitedEither visited cur nb = false := by
  intro l
  induction l with
  | nil => intro h; exact absurd h (by simp [findNext])
  | cons x rest ih =>
    intro h
    unfold findNext at h
    split at h
    · rename_i hcond
      obtain rfl := Option.some.injEq _ _ ▸ h
      exact ⟨List.mem_cons_self _ _, hcond.1, Bool.not_eq_true _ ▸ hcond.2⟩
    · obtain ⟨h1, h2, h3⟩ := ih h
      exact ⟨List.mem_cons_of_mem _ h1, h2, h3⟩

theorem visitedEither_false_iff {visited : List Pair} {a b : Key} :
    visitedEither visited a b = false ↔ (a, b) ∉ visited ∧ (b, a) ∉ visited := by
  simp [visitedEither]

theorem zipPairs_nil : zipPairs [] = [] := rfl

theorem zipPairs_single (a : Key) : zipPairs [a] = [] := rfl

theorem zipPairs_cons_cons (a b : Key) (t : List Key) :
    zipPairs (a :: b :: t) = (a, b) :: zipPairs (b :: t) := rfl

theorem freshPairs_base :
    ∀ (trav visited : List Pair), FreshPairs trav visited →
      ∀ p ∈ trav, ∀ q ∈ visited, p ≠ q ∧ p ≠ q.swap := by
  intro trav
  induction trav with
  | nil => intro visited _ p hp; exact absurd hp (by simp)
  | cons r rest ih =>
    intro visited hf p hp q hq
    obtain ⟨h1, h2, h3⟩ := hf
    rcases List.mem_cons.1 hp with rfl | hp
    · constructor
      · intro rfl_eq; exact h1 (rfl_eq ▸ hq)
      · intro heq
        apply h2
        rw [heq, Prod.swap_swap]
        exact hq
    · exact ih (r :: visited) h3 _ hp q (List.mem_cons_of_mem _ hq)

theorem freshPairs_pairwise :
    ∀ (trav visited : List Pair), FreshPairs trav visited → trav.Pairwise UDiff := by
  intro trav
  induction trav with
  | nil => intro _ _; exact List.Pairwise.nil
  | cons p rest ih =>
    intro visited hf
    obtain ⟨h1, h2, h3⟩ := hf
    refine List.Pairwise.cons ?_ (ih _ h3)
    intro q hq
    obtain ⟨hq1, hq2⟩ := freshPairs_base rest (p :: visited) h3 q hq p (List.mem_cons_self _ _)
    constructor
    · exact fun heq => hq1 heq.symm
    · intro heq
      apply hq2
      rw [heq, Prod.swap_swap]

/-- The full walk invariant: the pushed keys form an adjacency chain
starting at `cur` that never passes through `start` after its head, the
visited set grew by a fresh (undirected-distinct) travel record, and the
walk either stopped in place (final key = last pushed key) or closed back
to `start` along one further adjacency edge. -/
def WalkSpec (adj : List (Key × List Key)) (start : Key) (visited : List Pair)
    (cur : Key) (r : List Key × Key × List Pair) : Prop :=
  ∃ trav, r.1 ≠ [] ∧ r.1.head? = some cur ∧
    List.Chain' (adjRel adj) r.1 ∧
    start ∉ r.1.tail ∧
    (∀ k ∈ r.1, k = cur ∨ InVec adj k) ∧
    r.2.2 = trav.reverse ++ visited ∧
    FreshPairs trav visited ∧
    ((r.1.getLast? = some r.2.1 ∧ trav = zipPairs r.1) ∨
     (r.2.1 = start ∧ trav = zipPairs (r.1 ++ [start]) ∧
      List.Chain' (adjRel adj) (r.1 ++ [start])))

theorem walkSpec_trivial (adj : List (Key × List Key)) (start : Key)
    (visited : List Pair) (cur : Key) :
    WalkSpec adj start visited cur ([cur], cur, visited) := by
  refine ⟨[], by simp, by simp, List.chain'_singleton cur, by simp, by simp, by simp,
    trivial, Or.inl ⟨by simp, rfl⟩⟩

theorem walk_spec (adj : List (Key × List Key)) (start : Key) :
    ∀ (fuel : ℕ) (visited : List Pair) (prev cur : Key),
      WalkSpec adj start visited cur (walk adj start fuel visited prev cur) := by
  intro fuel
  induction fuel with
  | zero => intro visited prev cur; exact walkSpec_trivial adj start visited cur
  | succ fuel ih =>
    intro visited prev cur
    cases hl : alookup adj cur with
    | none =>
      have heq : walk adj start (fuel + 1) visited prev cur = ([cur], cur, visited) := by
        unfold walk; rw [hl]
      rw [heq]
      exact walkSpec_trivial adj start visited cur
    | some neighbors =>
      cases hf : findNext visited cur prev neighbors with
      | none =>
        have heq : walk adj start (fuel + 1) visited prev cur = ([cur], cur, visited) := by
          unfold walk
          rw [hl]
          dsimp only
          rw [hf]
        rw [heq]
        exact walkSpec_trivial adj start visited cur
      | some nb =>
        obtain ⟨hnb_mem, hnb_prev, hnb_vis⟩ := findNext_spec hf
        obtain ⟨hnv1, hnv2⟩ := visitedEither_false_iff.1 hnb_vis
        have hadj_nb : adjRel adj cur nb := by unfold adjRel; rw [hl]; exact hnb_mem
        by_cases hstart : nb = start
        · subst hstart
          have heq : walk adj nb (fuel + 1) visited prev cur =
              ([cur], nb, (cur, nb) :: visited) := by
            unfold walk
            rw [hl]
            dsimp only
            rw [hf]
            dsimp only
            rw [if_pos rfl]
          rw [heq]
          refine ⟨[(cur, nb)], by simp, by simp, List.chain'_singleton cur, by simp,
            by simp, by simp, ⟨hnv1, hnv2, trivial⟩,
            Or.inr ⟨rfl, rfl, List.chain'_pair.2 hadj_nb⟩⟩
        · rcases hr : walk adj start fuel ((cur, nb) :: visited) cur nb with ⟨ks1, fin1, vis1⟩
          have hspec := ih ((cur, nb) :: visited) cur nb
          rw [hr] at hspec
          unfold WalkSpec at hspec
          dsimp only at hspec
          obtain ⟨trav1, hne, hhead, hchain, htail, hmem, hvis, hfresh, hbranch⟩ := hspec
          have heq : walk adj start (fuel + 1) visited prev cur = (cur :: ks1, fin1, vis1) := by
            unfold walk
            rw [hl]
            dsimp only
            rw [hf]
            dsimp only
            rw [if_neg hstart, hr]
          rw [heq]
          obtain ⟨t, rfl⟩ : ∃ t, ks1 = nb :: t := by
            cases ks1 with
            | nil => simp at hhead
            | cons a t =>
              obtain rfl : a = nb := by simpa using hhead
              exact ⟨t, rfl⟩
          refine ⟨(cur, nb) :: trav1, by simp, by simp, ?_, ?_, ?_, ?_, ?_, ?_⟩
          · exact List.chain'_cons.2 ⟨hadj_nb, hchain⟩
          · intro hmem_start
            rcases List.mem_cons.1 hmem_start with heq2 | hmem2
            · exact hstart heq2.symm
            · exact htail hmem2
          · intro k hk
            rcases List.mem_cons.1 hk with rfl | hk2
            · exact Or.inl rfl
            · rcases hmem k hk2 with rfl | hk3
              · exact Or.inr (adjRel_invec hadj_nb)
              · exact Or.inr hk3
          · show vis1 = ((cur, nb) :: trav1).reverse ++ visited
            rw [hvis, List.reverse_cons, List.append_assoc]
            rfl
          · exact ⟨hnv1, hnv2, hfresh⟩
          · rcases hbranch with ⟨hlast, htrav⟩ | ⟨hfin, htrav, hchain2⟩
            · refine Or.inl ⟨?_, ?_⟩
              · show (cur :: nb :: t).getLast? = some fin1
                rw [List.getLast?_cons_cons]
                exact hlast
              · show (cur, nb) :: trav1 = zipPairs (cur :: nb :: t)
                rw [zipPairs_cons_cons, htrav]
            · refine Or.inr ⟨hfin, ?_, ?_⟩
              · show (cur, nb) :: trav1 = zipPairs ((cur :: nb :: t) ++ [start])
                rw [show (cur :: nb :: t) ++ [start] = cur :: nb :: (t ++ [start]) from rfl,
                  zipPairs_cons_cons, htrav]
                rfl
              · show List.Chain' (adjRel adj) ((cur :: nb :: t) ++ [start])
                rw [show (cur :: nb :: t) ++ [start] = cur :: ((nb :: t) ++ [start]) from rfl]
                exact List.chain'_cons'.2 ⟨fun y hy => by
                  rw [show ((nb :: t) ++ [start]).head? = some nb from rfl] at hy
                  obtain rfl : nb = y := by simpa using hy
                  exact hadj_nb, hchain2⟩

theorem mem_of_getLast?_eq {α : Type} : ∀ {l : List α} {a : α}, l.getLast? = some a → a ∈ l := by
  intro l
  induction l with
  | nil => intro a h; simp at h
  | cons x rest ih =>
    intro a h
    cases rest with
    | nil =>
      obtain rfl : a = x := by simpa using h.symm
      exact List.mem_cons_self _ _
    | cons y t =>
      rw [List.getLast?_cons_cons] at h
      exact List.mem_cons_of_mem _ (ih h)

/-- Every accepted `polygon_keys` list satisfies the walk invariants. -/
theorem tryStart_spec {adj : List (Key × List Key)} {fuel : ℕ} {start next : Key}
    {visited : List Pair} {res : Option (List Key)} {vis' : List Pair}
    (hnext : adjRel adj start next)
    (h : tryStart adj fuel start next visited = (res, vis')) :
    ∀ keys, res = some keys → AcceptedKeys adj start keys := by
  intro keys hres
  unfold tryStart at h
  by_cases hguard : visitedEither visited start next = true
  · rw [if_pos hguard] at h
    injection h with h1 h2
    rw [← h1] at hres
    simp at hres
  · rw [if_neg hguard] at h
    obtain ⟨g1, g2⟩ := visitedEither_false_iff.1 (Bool.not_eq_true _ ▸ hguard)
    rcases hr : walk adj start fuel ((start, next) :: visited) start next with ⟨ks, fin, vis2⟩
    dsimp only at h
    rw [hr] at h
    dsimp only at h
    have hspec := walk_spec adj start fuel ((start, next) :: visited) start next
    rw [hr] at hspec
    unfold WalkSpec at hspec
    dsimp only at hspec
    obtain ⟨trav, hne, hhead, hchain, htail, hmem, hvis, hfresh, hbranch⟩ := hspec
    by_cases hacc : 3 ≤ (start :: ks).length ∧ fin = start
    · rw [if_pos hacc] at h
      injection h with h1 h2
      obtain rfl : start :: ks = keys := Option.some.inj (h1.trans hres)
      obtain ⟨t, rfl⟩ : ∃ t, ks = next :: t := by
        cases ks with
        | nil => simp at hhead
        | cons a t =>
          obtain rfl : a = next := by simpa using hhead
          exact ⟨t, rfl⟩
      rcases hbranch with ⟨hlast, htrav⟩ | ⟨hfin, htrav, hchain2⟩
      · exfalso
        cases t with
        | nil =>
          have hlen2 : (start :: next :: ([] : List Key)).length = 2 := rfl
          have hlen3 := hacc.1
          omega
        | cons y t2 =>
          rw [List.getLast?_cons_cons] at hlast
          apply htail
          rw [hacc.2] at hlast
          exact mem_of_getLast?_eq hlast
      · refine ⟨rfl, hacc.1, ?_, ?_, ?_⟩
        · exact List.chain'_cons.2 ⟨hnext, hchain2⟩
        · have hfresh2 : FreshPairs ((start, next) :: trav) visited := ⟨g1, g2, hfresh⟩
          have hpw := freshPairs_pairwise _ _ hfresh2
          rw [List.cons_append] at htrav
          rw [show ((start :: next :: t) ++ [start]) = start :: next :: (t ++ [start]) from rfl,
            zipPairs_cons_cons, ← htrav]
          exact hpw
        · intro k hk
          rcases List.mem_cons.1 hk with rfl | hk2
          · exact Or.inl rfl
          · rcases hmem k hk2 with rfl | hk3
            · exact Or.inr (adjRel_invec hnext)
            · exact Or.inr hk3
    · rw [if_neg hacc] at h
      injection h with h1 h2
      rw [← h1] at hres
      simp at hres

theorem key_cover_of_card_le_two {s : Finset Key} (h : s.card ≤ 2) :
    ∃ a b, ∀ x ∈ s, x = a ∨ x = b := by
  rcases s.eq_empty_or_nonempty with rfl | ⟨a, ha⟩
  · exact ⟨(0, 0), (0, 0), by simp⟩
  rcases (s.erase a).eq_empty_or_nonempty with he | ⟨b, hb⟩
  · refine ⟨a, a, ?_⟩
    intro x hx
    by_contra hx2
    push_neg at hx2
    have hmem : x ∈ s.erase a := Finset.mem_erase.2 ⟨hx2.1, hx⟩
    rw [he] at hmem
    simp at hmem
  · have hba : b ≠ a := (Finset.mem_erase.1 hb).1
    have hbs : b ∈ s := (Finset.mem_erase.1 hb).2
    refine ⟨a, b, ?_⟩
    intro x hx
    by_contra hx2
    push_neg at hx2
    have hsub : ({a, b, x} : Finset Key) ⊆ s := by
      intro y hy
      simp only [Finset.mem_insert, Finset.mem_singleton] at hy
      rcases hy with rfl | rfl | rfl <;> assumption
    have hcard3 : ({a, b, x} : Finset Key).card = 3 := by
      rw [Finset.card_insert_of_not_mem, Finset.card_insert_of_not_mem, Finset.card_singleton]
      · simp only [Finset.mem_singleton]
        exact fun hbx => hx2.2 hbx.symm
      · simp only [Finset.mem_insert, Finset.mem_singleton]
        push_neg
        exact ⟨hba.symm, fun hax => hx2.1 hax.symm⟩
    have hle := Finset.card_le_card hsub
    omega

/-- A closed walk of length at least 3 whose cyclic edge list is pairwise
distinct as undirected edges visits at least 3 distinct keys: with ≤ 2
distinct keys there are only 3 possible undirected edges and every cyclic
arrangement of them repeats one. -/
theorem accepted_card {keys : List Key} {start : Key}
    (hhead : keys.head? = some start) (hlen : 3 ≤ keys.length)
    (hud : (zipPairs (keys ++ [start])).Pairwise UDiff) :
    3 ≤ keys.toFinset.card := by
  by_contra hcard
  push_neg at hcard
  have hcard2 : keys.toFinset.card ≤ 2 := by omega
  obtain ⟨a, b, hab⟩ := key_cover_of_card_le_two hcard2
  have hab' : ∀ x ∈ keys, x = a ∨ x = b := fun x hx => hab x (List.mem_toFinset.2 hx)
  have hstart_mem : start ∈ keys := by
    cases keys with
    | nil => simp at hhead
    | cons k t =>
      obtain rfl : k = start := by simpa using hhead
      exact List.mem_cons_self _ _
  have hcp_len : (zipPairs (keys ++ [start])).length = keys.length := by
    unfold zipPairs
    rw [List.length_zip, List.length_tail, List.length_append]
    simp
  have hcomp : ∀ p ∈ zipPairs (keys ++ [start]),
      (p.1 = a ∨ p.1 = b) ∧ (p.2 = a ∨ p.2 = b) := by
    rintro ⟨u, v⟩ hp
    obtain ⟨hu, hv⟩ := List.of_mem_zip hp
    have hv' : v ∈ keys ++ [start] := List.mem_of_mem_tail hv
    have hu2 : u ∈ keys := by
      rcases List.mem_append.1 hu with h1 | h1
      · exact h1
      · obtain rfl : u = start := by simpa using h1
        exact hstart_mem
    have hv2 : v ∈ keys := by
      rcases List.mem_append.1 hv' with h1 | h1
      · exact h1
      · obtain rfl : v = start := by simpa using h1
        exact hstart_mem
    exact ⟨hab' u hu2, hab' v hv2⟩
  by_cases hab_eq : a = b
  · subst hab_eq
    have h2 : 2 ≤ (zipPairs (keys ++ [start])).length := by omega
    obtain ⟨p, q, rest, hcp_eq⟩ : ∃ p q rest, zipPairs (keys ++ [start]) = p :: q :: rest := by
      cases hc : zipPairs (keys ++ [start]) with
      | nil => rw [hc] at h2; simp at h2
      | cons p cps =>
        cases cps with
        | nil => rw [hc] at h2; simp at h2
        | cons q rest => exact ⟨p, q, rest, rfl⟩
    have hpq : UDiff p q := by
      rw [hcp_eq] at hud
      exact (List.pairwise_cons.1 hud).1 q (List.mem_cons_self _ _)
    have hp := hcomp p (by rw [hcp_eq]; exact List.mem_cons_self _ _)
    have hq := hcomp q (by rw [hcp_eq]; exact List.mem_cons_of_mem _ (List.mem_cons_self _ _))
    have hpa : p = (a, a) := by
      have h1 : p.1 = a := by rcases hp.1 with h | h <;> exact h
      have h2 : p.2 = a := by rcases hp.2 with h | h <;> exact h
      exact Prod.ext_iff.2 ⟨h1, h2⟩
    have hqa : q = (a, a) := by
      have h1 : q.1 = a := by rcases hq.1 with h | h <;> exact h
      have h2 : q.2 = a := by rcases hq.2 with h | h <;> exact h
      exact Prod.ext_iff.2 ⟨h1, h2⟩
    exact hpq.1 (by rw [hpa, hqa])
  · have hcanon_inj : ∀ p q : Pair, UDiff p q →
        (if p.1 = a then p else p.swap) ≠ (if q.1 = a then q else q.swap) := by
      intro p q hud_pq heq
      by_cases h1 : p.1 = a
      · by_cases h2 : q.1 = a
        · rw [if_pos h1, if_pos h2] at heq
          exact hud_pq.1 heq
        · rw [if_pos h1, if_neg h2] at heq
          exact hud_pq.2 heq
      · by_cases h2 : q.1 = a
        · rw [if_neg h1, if_pos h2] at heq
          exact hud_pq.2 (by rw [← heq, Prod.swap_swap])
        · rw [if_neg h1, if_neg h2] at heq
          exact hud_pq.1 (Prod.swap_injective heq)
    have hnodup : ((zipPairs (keys ++ [start])).map
        (fun p : Pair => if p.1 = a then p else p.swap)).Nodup :=
      List.Pairwise.map _ hcanon_inj hud
    have hsubset : ∀ x ∈ (zipPairs (keys ++ [start])).map
        (fun p : Pair => if p.1 = a then p else p.swap),
        x ∈ ({(a, a), (a, b), (b, b)} : Finset Pair) := by
      intro x hx
      obtain ⟨p, hp, rfl⟩ := List.mem_map.1 hx
      obtain ⟨h1, h2⟩ := hcomp p hp
      obtain ⟨p1, p2⟩ := p
      dsimp only at h1 h2 ⊢
      rcases h1 with rfl | rfl <;> rcases h2 with rfl | rfl <;>
        simp [Ne.symm hab_eq, Prod.swap_prod_mk]
    have hlen3 : keys.length ≤ 3 := by
      have hnd_len : ((zipPairs (keys ++ [start])).map
          (fun p : Pair => if p.1 = a then p else p.swap)).toFinset.card =
          (zipPairs (keys ++ [start])).length := by
        rw [List.toFinset_card_of_nodup hnodup, List.length_map]
      have hsub2 : ((zipPairs (keys ++ [start])).map
          (fun p : Pair => if p.1 = a then p else p.swap)).toFinset ⊆
          {(a, a), (a, b), (b, b)} :=
        fun x hx => hsubset x (List.mem_toFinset.1 hx)
      have h3 := Finset.card_le_card hsub2
      have h5 : ({(a, b), (b, b)} : Finset Pair).card ≤ 2 :=
        le_trans (Finset.card_insert_le _ _) (by simp)
      have h4 : ({(a, a), (a, b), (b, b)} : Finset Pair).card ≤ 3 :=
        le_trans (Finset.card_insert_le _ _) (by omega)
      omega
    have hklen : keys.length = 3 := by omega
    obtain ⟨k0, k1, k2, rfl⟩ : ∃ k0 k1 k2, keys = [k0, k1, k2] := by
      rcases keys with _ | ⟨k0, _ | ⟨k1, _ | ⟨k2, t3⟩⟩⟩
      · simp at hklen
      · simp at hklen
      · simp at hklen
      · rcases t3 with _ | ⟨k3, t4⟩
        · exact ⟨k0, k1, k2, rfl⟩
        · simp [List.length_cons] at hklen
    obtain rfl : k0 = start := by simpa using hhead
    have hcp3 : zipPairs ([k0, k1, k2] ++ [k0]) =
        [(k0, k1), (k1, k2), (k2, k0)] := rfl
    rw [hcp3] at hud
    obtain ⟨h01, hud2⟩ := List.pairwise_cons.1 hud
    obtain ⟨h12, _⟩ := List.pairwise_cons.1 hud2
    have ud01 := h01 _ (List.mem_cons_self _ _)
    have ud02 := h01 _ (List.mem_cons_of_mem _ (List.mem_cons_self _ _))
    have ud12 := h12 _ (List.mem_cons_self _ _)
    have hk0 : k0 = a ∨ k0 = b := hab' k0 (by simp)
    have hk1 : k1 = a ∨ k1 = b := hab' k1 (by simp)
    have hk2 : k2 = a ∨ k2 = b := hab' k2 (by simp)
    rcases hk0 with rfl | rfl <;> rcases hk1 with rfl | rfl <;> rcases hk2 with rfl | rfl <;>
      simp_all [UDiff, Prod.swap_prod_mk]

theorem innerStarts_accepted {adj : List (Key × List Key)} {fuel : ℕ} {start : Key} :
    ∀ (nexts : List Key) (visited : List Pair),
      (∀ n ∈ nexts, adjRel adj start n) →
      ∀ keys ∈ (innerStarts adj fuel start nexts visited).1,
        AcceptedKeys adj start keys := by
  intro nexts
  induction nexts with
  | nil => intro visited _ keys hk; simp [innerStarts] at hk
  | cons next rest ih =>
    intro visited hadj keys hk
    rcases htry : tryStart adj fuel start next visited with ⟨acc, vis1⟩
    rcases hin : innerStarts adj fuel start rest vis1 with ⟨polys, vis2⟩
    have hred : innerStarts adj fuel start (next :: rest) visited = (acc.toList ++ polys, vis2) := by
      unfold innerStarts
      rw [htry]
      dsimp only
      rw [hin]
    rw [hred] at hk
    dsimp only at hk
    rcases List.mem_append.1 hk with h1 | h1
    · have hacc : acc = some keys := by
        cases acc with
        | none => simp at h1
        | some ks =>
          obtain rfl : keys = ks := by simpa using h1
          rfl
      exact tryStart_spec (hadj next (List.mem_cons_self _ _)) htry keys hacc
    · exact ih vis1 (fun n hn => hadj n (List.mem_cons_of_mem _ hn)) keys (by rw [hin]; exact h1)

theorem outerStarts_accepted {adj : List (Key × List Key)} {fuel : ℕ} :
    ∀ (order : List Key) (visited : List Pair),
      ∀ keys ∈ (outerStarts adj fuel order visited).1,
        ∃ start, AcceptedKeys adj start keys := by
  intro order
  induction order with
  | nil => intro visited keys hk; simp [outerStarts] at hk
  | cons st rest ih =>
    intro visited keys hk
    rcases hin : innerStarts adj fuel st ((alookup adj st).getD []) visited with ⟨polys, vis1⟩
    rcases hout : outerStarts adj fuel rest vis1 with ⟨polys2, vis2⟩
    have hred : outerStarts adj fuel (st :: rest) visited = (polys ++ polys2, vis2) := by
      unfold outerStarts
      rw [hin]
      dsimp only
      rw [hout]
    rw [hred] at hk
    dsimp only at hk
    rcases List.mem_append.1 hk with h1 | h1
    · exact ⟨st, innerStarts_accepted _ visited (fun n hn => hn) keys (by rw [hin]; exact h1)⟩
    · exact ih vis1 keys (by rw [hout]; exact h1)

theorem assembleKeys_accepted {segments : List Seg} {order : List Key} :
    ∀ keys ∈ assembleKeys segments order,
      ∃ start, AcceptedKeys (adjMap segments) start keys :=
  fun keys hk => outerStarts_accepted order [] keys hk

theorem alookup_append {α : Type} (m1 m2 : List (Key × α)) (k : Key) :
    alookup (m1 ++ m2) k =
      match alookup m1 k with
      | some v => some v
      | none => alookup m2 k := by
  induction m1 with
  | nil => simp [alookup]
  | cons e rest ih =>
    obtain ⟨k', v⟩ := e
    by_cases h : k' = k
    · simp [alookup, h]
    · simp [alookup, h, ih]

theorem coordInsert_lookup {m : List (Key × Vec3)} {k0 : Key} {p0 : Vec3} {k : Key} {p : Vec3}
    (h : alookup (coordInsert m k0 p0) k = some p) :
    alookup m k = some p ∨ (k = k0 ∧ p = p0) := by
  unfold coordInsert at h
  cases hl : alookup m k0 with
  | some q => rw [hl] at h; exact Or.inl h
  | none =>
    rw [hl] at h
    rw [alookup_append] at h
    cases hm : alookup m k with
    | some q =>
      rw [hm] at h
      exact Or.inl h
    | none =>
      rw [hm] at h
      by_cases hk : k0 = k
      · rw [show alookup [(k0, p0)] k = some p0 from by simp [alookup, hk]] at h
        exact Or.inr ⟨hk.symm, (Option.some.inj h).symm⟩
      · rw [show alookup [(k0, p0)] k = none from by simp [alookup, hk]] at h
        simp at h

/-- Every coordinate stored in `point_coords` is stored under its own
quantized key. -/
theorem coordsMap_key_inv (segments : List Seg) :
    ∀ k p, alookup (coordsMap segments) k = some p → point_to_key p eps = k := by
  have main : ∀ (segs : List Seg) (m : List (Key × Vec3)),
      (∀ k p, alookup m k = some p → point_to_key p eps = k) →
      ∀ k p, alookup
        (segs.foldl (fun m seg =>
          coordInsert (coordInsert m (point_to_key seg.1 eps) seg.1)
            (point_to_key seg.2 eps) seg.2) m) k = some p →
        point_to_key p eps = k := by
    intro segs
    induction segs with
    | nil => intro m hm; exact hm
    | cons seg rest ih =>
      intro m hm k p hl
      rw [List.foldl_cons] at hl
      refine ih _ ?_ k p hl
      intro k' p' h'
      rcases coordInsert_lookup h' with h1 | ⟨rfl, rfl⟩
      · rcases coordInsert_lookup h1 with h2 | ⟨rfl, rfl⟩
        · exact hm k' p' h2
        · rfl
      · rfl
  intro k p h
  exact main segments [] (by intro k' p' h'; simp [alookup] at h') k p h

/-- The quantized keys of all segment endpoints. -/
def segKeys (segments : List Seg) : List Key :=
  segments.flatMap fun seg => [point_to_key seg.1 eps, point_to_key seg.2 eps]

theorem coordInsert_isSome_mono {m : List (Key × Vec3)} {k0 : Key} {p0 : Vec3} {k : Key}
    (h : (alookup m k).isSome = true) :
    (alookup (coordInsert m k0 p0) k).isSome = true := by
  unfold coordInsert
  cases hl : alookup m k0 with
  | some q => exact h
  | none =>
    rw [alookup_append]
    cases hm : alookup m k with
    | some q => rfl
    | none => rw [hm] at h; simp at h

theorem coordInsert_isSome_self {m : List (Key × Vec3)} {k0 : Key} {p0 : Vec3} :
    (alookup (coordInsert m k0 p0) k0).isSome = true := by
  unfold coordInsert
  cases hl : alookup m k0 with
  | some q => rw [hl]; rfl
  | none =>
    rw [alookup_append, hl]
    simp [alookup]

theorem coordsMap_covers (segments : List Seg) :
    ∀ k, k ∈ segKeys segments → (alookup (coordsMap segments) k).isSome = true := by
  have main : ∀ (segs : List Seg) (m : List (Key × Vec3)) (k : Key),
      ((alookup m k).isSome = true ∨ k ∈ segKeys segs) →
      (alookup (segs.foldl (fun m seg =>
        coordInsert (coordInsert m (point_to_key seg.1 eps) seg.1)
          (point_to_key seg.2 eps) seg.2) m) k).isSome = true := by
    intro segs
    induction segs with
    | nil =>
      intro m k hk
      rcases hk with hk | hk
      · exact hk
      · simp [segKeys] at hk
    | cons seg rest ih =>
      intro m k hk
      rw [List.foldl_cons]
      apply ih
      rcases hk with hk | hk
      · exact Or.inl (coordInsert_isSome_mono (coordInsert_isSome_mono hk))
      · rcases List.mem_flatMap.1 hk with ⟨seg', hseg', hkk⟩
        rcases List.mem_cons.1 hseg' with rfl | hseg2
        · simp only [List.mem_cons, List.mem_singleton] at hkk
          rcases hkk with rfl | rfl | hkk
          · exact Or.inl (coordInsert_isSome_mono coordInsert_isSome_self)
          · exact Or.inl coordInsert_isSome_self
          · simp at hkk
        · exact Or.inr (List.mem_flatMap.2 ⟨seg', hseg2, hkk⟩)
  intro k hk
  exact main segments [] k (Or.inr hk)

theorem adjInsert_pres {S : Key → Prop} :
    ∀ {m : List (Key × List Key)} {k v : Key},
      (∀ e ∈ m, S e.1 ∧ ∀ u ∈ e.2, S u) → S k → S v →
      ∀ e ∈ adjInsert m k v, S e.1 ∧ ∀ u ∈ e.2, S u := by
  intro m
  induction m with
  | nil =>
    intro k v _ hk hv e he
    simp only [adjInsert, List.mem_singleton] at he
    subst he
    refine ⟨hk, ?_⟩
    intro u hu
    obtain rfl : u = v := by simpa using hu
    exact hv
  | cons e0 rest ih =>
    intro k v hm hk hv e he
    obtain ⟨k', vs⟩ := e0
    unfold adjInsert at he
    by_cases hkk : k' = k
    · rw [if_pos hkk] at he
      rcases List.mem_cons.1 he with rfl | he2
      · refine ⟨(hm (k', vs) (List.mem_cons_self _ _)).1, ?_⟩
        intro u hu
        rcases List.mem_append.1 hu with hu1 | hu1
        · exact (hm (k', vs) (List.mem_cons_self _ _)).2 u hu1
        · obtain rfl : u = v := by simpa using hu1
          exact hv
      · exact hm e (List.mem_cons_of_mem _ he2)
    · rw [if_neg hkk] at he
      rcases List.mem_cons.1 he with rfl | he2
      · exact hm (k', vs) (List.mem_cons_self _ _)
      · exact ih (fun e' he' => hm e' (List.mem_cons_of_mem _ he')) hk hv e he2

theorem adjMap_entries (segments : List Seg) :
    ∀ e ∈ adjMap segments, e.1 ∈ segKeys segments ∧ ∀ v ∈ e.2, v ∈ segKeys segments := by
  have main : ∀ (segs : List Seg) (m : List (Key × List Key)),
      (∀ e ∈ m, e.1 ∈ segKeys segments ∧ ∀ v ∈ e.2, v ∈ segKeys segments) →
      (∀ seg ∈ segs, point_to_key seg.1 eps ∈ segKeys segments ∧
        point_to_key seg.2 eps ∈ segKeys segments) →
      ∀ e ∈ segs.foldl (fun m seg =>
        adjInsert (adjInsert m (point_to_key seg.1 eps) (point_to_key seg.2 eps))
          (point_to_key seg.2 eps) (point_to_key seg.1 eps)) m,
        e.1 ∈ segKeys segments ∧ ∀ v ∈ e.2, v ∈ segKeys segments := by
    intro segs
    induction segs with
    | nil => intro m hm _; exact hm
    | cons seg rest ih =>
      intro m hm hsegs e he
      rw [List.foldl_cons] at he
      have h1 := hsegs seg (List.mem_cons_self _ _)
      refine ih _ ?_ (fun s hs => hsegs s (List.mem_cons_of_mem _ hs)) e he
      exact adjInsert_pres (adjInsert_pres hm h1.1 h1.2) h1.2 h1.1
  intro e he
  refine main segments [] (by simp) ?_ e he
  intro seg hseg
  constructor
  · exact List.mem_flatMap.2 ⟨seg, hseg, by simp⟩
  · exact List.mem_flatMap.2 ⟨seg, hseg, by simp⟩

theorem invec_mem_segKeys {segments : List Seg} {k : Key}
    (h : InVec (adjMap segments) k) : k ∈ segKeys segments := by
  obtain ⟨e, he, hk⟩ := h
  exact (adjMap_entries segments e he).2 k hk

theorem adj_domain_mem_segKeys {segments : List Seg} {u : Key} {vec : List Key}
    (h : alookup (adjMap segments) u = some vec) : u ∈ segKeys segments :=
  (adjMap_entries segments (u, vec) (alookup_mem h)).1

theorem resolveKeys_isSome {coords : List (Key × Vec3)} :
    ∀ {kl : List Key}, (∀ k ∈ kl, (alookup coords k).isSome = true) →
      (resolveKeys coords kl).isSome = true := by
  intro kl
  induction kl with
  | nil => intro _; rfl
  | cons k rest ih =>
    intro h
    have h1 := h k (List.mem_cons_self _ _)
    obtain ⟨p, hp⟩ := Option.isSome_iff_exists.1 h1
    have h2 := ih (fun k' hk' => h k' (List.mem_cons_of_mem _ hk'))
    obtain ⟨ps, hps⟩ := Option.isSome_iff_exists.1 h2
    unfold resolveKeys
    rw [hp, hps]
    rfl

theorem resolveAll_isSome {coords : List (Key × Vec3)} :
    ∀ {kls : List (List Key)}, (∀ kl ∈ kls, (resolveKeys coords kl).isSome = true) →
      (resolveAll coords kls).isSome = true := by
  intro kls
  induction kls with
  | nil => intro _; rfl
  | cons kl rest ih =>
    intro h
    obtain ⟨poly, hpoly⟩ := Option.isSome_iff_exists.1 (h kl (List.mem_cons_self _ _))
    obtain ⟨polys, hpolys⟩ :=
      Option.isSome_iff_exists.1 (ih (fun kl' hk' => h kl' (List.mem_cons_of_mem _ hk')))
    unfold resolveAll
    rw [hpoly, hpolys]
    rfl

/-- **C10** (confirmed).  The assembler is total: every key pushed onto a
walk — the start key of an accepted walk, its first neighbor, and every
key reached through an adjacency `Vec` — was recorded in `point_coords`
when the maps were built from the very same segments, so resolving every
accepted polygon back to stored representative coordinates always
succeeds (`assemble_polygons` never returns the panic marker `none`), for
every segment list and every iteration order. -/
theorem C10_assembler_never_panics (segments : List Seg) (order : List Key) :
    (assemble_polygons segments order).isSome = true := by
  unfold assemble_polygons
  apply resolveAll_isSome
  intro kl hkl
  apply resolveKeys_isSome
  intro k hk
  obtain ⟨start, hhead, hlen, hchain, hud, hmem⟩ := assembleKeys_accepted kl hkl
  rcases hmem k hk with rfl | hinv
  · -- k is the start key: its neighbor Vec is nonempty, so it is in the
    -- adjacency domain and hence among the segment endpoint keys.
    obtain ⟨k1, t, rfl⟩ : ∃ k1 t, kl = k :: k1 :: t := by
      cases kl with
      | nil => simp at hhead
      | cons k0 rest =>
        obtain rfl : k0 = k := by simpa using hhead
        cases rest with
        | nil => simp at hlen
        | cons k1 t => exact ⟨k1, t, rfl⟩
    have hrel : adjRel (adjMap segments) k k1 := (List.chain'_cons.1 hchain).1
    unfold adjRel at hrel
    cases hl : alookup (adjMap segments) k with
    | none => rw [hl] at hrel; simp at hrel
    | some vec =>
      exact coordsMap_covers segments k (adj_domain_mem_segKeys hl)
  · exact coordsMap_covers segments k (invec_mem_segKeys hinv)

theorem resolveKeys_spec {coords : List (Key × Vec3)}
    (hinv : ∀ k p, alookup coords k = some p → point_to_key p eps = k) :
    ∀ {kl : List Key} {poly : List Vec3}, resolveKeys coords kl = some poly →
      poly.map (fun p => point_to_key p eps) = kl := by
  intro kl
  induction kl with
  | nil =>
    intro poly h
    obtain rfl : poly = [] := by simpa [resolveKeys] using h.symm
    rfl
  | cons k rest ih =>
    intro poly h
    unfold resolveKeys at h
    cases hk : alookup coords k with
    | none => rw [hk] at h; simp at h
    | some p =>
      cases hr : resolveKeys coords rest with
      | none => rw [hk, hr] at h; simp at h
      | some ps =>
        rw [hk, hr] at h
        obtain rfl : poly = p :: ps := by simpa using h.symm
        rw [List.map_cons, hinv k p hk, ih hr]

theorem resolveAll_mem {coords : List (Key × Vec3)} :
    ∀ {kls : List (List Key)} {polys : List (List Vec3)},
      resolveAll coords kls = some polys →
      ∀ poly ∈ polys, ∃ kl ∈ kls, resolveKeys coords kl = some poly := by
  intro kls
  induction kls with
  | nil =>
    intro polys h poly hpoly
    obtain rfl : polys = [] := by simpa [resolveAll] using h.symm
    simp at hpoly
  | cons kl rest ih =>
    intro polys h poly hpoly
    unfold resolveAll at h
    cases h1 : resolveKeys coords kl with
    | none => rw [h1] at h; simp at h
    | some poly0 =>
      cases h2 : resolveAll coords rest with
      | none => rw [h1, h2] at h; simp at h
      | some polys0 =>
        rw [h1, h2] at h
        obtain rfl : polys = poly0 :: polys0 := by simpa using h.symm
        rcases List.mem_cons.1 hpoly with rfl | hmem
        · exact ⟨kl, List.mem_cons_self _ _, h1⟩
        · obtain ⟨kl', hkl', hres⟩ := ih h2 poly hmem
          exact ⟨kl', List.mem_cons_of_mem _ hkl', hres⟩

/-- **C9** (confirmed).  Every polygon produced by the assembler came from
a walk that returned to its start key: its quantized key cycle (the key
list followed by its own head) is a chain in the adjacency graph built
from the segments — so open chains contribute nothing — and the polygon
has at least 3 vertices, of which at least 3 are distinct. -/
theorem C9_polygons_closed_three_distinct (segments : List Seg) (order : List Key)
    (polys : List (List Vec3)) (h : assemble_polygons segments order = some polys) :
    ∀ poly ∈ polys, 3 ≤ poly.length ∧ 3 ≤ poly.toFinset.card ∧
      List.Chain' (adjRel (adjMap segments))
        (poly.map (fun p => point_to_key p eps) ++
          (poly.map (fun p => point_to_key p eps)).take 1) := by
  intro poly hpoly
  unfold assemble_polygons at h
  obtain ⟨kl, hkl, hres⟩ := resolveAll_mem h poly hpoly
  obtain ⟨start, hhead, hlen, hchain, hud, hmem⟩ := assembleKeys_accepted kl hkl
  have hmap : poly.map (fun p => point_to_key p eps) = kl :=
    resolveKeys_spec (coordsMap_key_inv segments) hres
  have hlen_eq : poly.length = kl.length := by
    rw [← hmap, List.length_map]
  refine ⟨by omega, ?_, ?_⟩
  · have hcard := accepted_card hhead hlen hud
    have himg : kl.toFinset = poly.toFinset.image (fun p => point_to_key p eps) := by
      rw [← hmap]
      ext x
      simp [List.mem_toFinset, List.mem_map, Finset.mem_image]
    have hle : kl.toFinset.card ≤ poly.toFinset.card := by
      rw [himg]
      exact Finset.card_image_le
    omega
  · rw [hmap]
    have htake : kl.take 1 = [start] := by
      cases kl with
      | nil => simp at hhead
      | cons k t =>
        obtain rfl : k = start := by simpa using hhead
        rfl
    rw [htake]
    exact hchain

theorem loopSegments_assembled :
    assemble_polygons loopSegments (adjKeys loopSegments) =
      some [[⟨0, 0, 0⟩, ⟨1, 0, 0⟩, ⟨0, 1, 0⟩]] := by
  norm_num [assemble_polygons, assembleKeys, resolveAll, resolveKeys, outerStarts,
    innerStarts, tryStart, walk, findNext, visitedEither, adjMap, adjInsert, coordsMap,
    coordInsert, alookup, point_to_key, rustRound, eps, adjKeys, loopSegments]
  decide

/-- Witness for C9 at the concrete triangle loop. -/
theorem C9_polygons_closed_three_distinct_witness :
    3 ≤ ([⟨0, 0, 0⟩, ⟨1, 0, 0⟩, ⟨0, 1, 0⟩] : List Vec3).length ∧
    3 ≤ ([⟨0, 0, 0⟩, ⟨1, 0, 0⟩, ⟨0, 1, 0⟩] : List Vec3).toFinset.card ∧
    List.Chain' (adjRel (adjMap loopSegments))
      (([⟨0, 0, 0⟩, ⟨1, 0, 0⟩, ⟨0, 1, 0⟩] : List Vec3).map (fun p => point_to_key p eps) ++
        (([⟨0, 0, 0⟩, ⟨1, 0, 0⟩, ⟨0, 1, 0⟩] : List Vec3).map
          (fun p => point_to_key p eps)).take 1) :=
  C9_polygons_closed_three_distinct loopSegments (adjKeys loopSegments)
    [[⟨0, 0, 0⟩, ⟨1, 0, 0⟩, ⟨0, 1, 0⟩]] loopSegments_assembled
    [⟨0, 0, 0⟩, ⟨1, 0, 0⟩, ⟨0, 1, 0⟩] (by simp)

end AmiSlicer
